import Mathlib

/-!
Shallow embedding of the curately backend core (scorer, pipeline
orchestrator, interest store, digest synthesizer) and proofs about it.

Conventions of the embedding:
* Python floats are modelled as rationals (`ℚ`); the arithmetic the
  services perform (add, subtract, multiply, compare) is exact on the
  values the proofs touch.
* `json.loads` output is modelled by `Jv`; a response body that is not
  valid JSON is modelled as `Option Jv = none`.
* The Gemini LLM is an oracle: each call either raises after all retries
  (`none`) or returns a response body (`some r`).
* The persistent store (Supabase) is modelled as an explicit list of rows
  threaded through the functions that touch it.
-/

namespace Curately

/-- JSON values as produced by `json.loads`. Python dicts are association
lists (parsed JSON objects have distinct keys), numbers are rationals. -/
inductive Jv where
  | null : Jv
  | bool (b : Bool) : Jv
  | num (q : ℚ) : Jv
  | str (s : String) : Jv
  | arr (elems : List Jv) : Jv
  | obj (fields : List (String × Jv)) : Jv

/-- `d.get(key)` on a parsed JSON object: the value under `key`, if any. -/
def objGet (fields : List (String × Jv)) (key : String) : Option Jv :=
  (fields.find? (fun p => p.1 = key)).map (fun p => p.2)

/-- Python `str(v)` on a parsed JSON value. The exact textual rendering of
numbers and containers is irrelevant to every claim; scalars are rendered
in the Python style. -/
def pyStr : Jv → String
  | .null => "None"
  | .bool b => if b then "True" else "False"
  | .num q => toString q
  | .str s => s
  | .arr _ => "[...]"
  | .obj _ => "\x7b...\x7d"

/-- Python `int(x)` on a float: truncation toward zero. -/
def pyTruncInt (q : ℚ) : ℤ :=
  if q < 0 then ⌈q⌉ else ⌊q⌋

/-- Python `v == i` for a JSON value `v` against the int `i`
(`r.get("index") == i`). Python booleans are ints (`True == 1`); a missing
key gives `None`, which is equal to no int. -/
def pyEqIdx (v : Option Jv) (i : ℕ) : Bool :=
  match v with
  | some (.num q) => q = (i : ℚ)
  | some (.bool b) => (if b then (1 : ℚ) else 0) = (i : ℚ)
  | _ => false

/-! ## Scorer (`backend/services/scorer.py`) -/

/-- One element of the list returned by `_parse_scoring_response` /
`score_articles`: always carries all four keys. -/
structure ScoreResult where
  index : ℕ
  relevance_score : ℚ
  categories : List String
  keywords : List String
  deriving Repr, DecidableEq

/-- `_fallback_result`: default scoring result used when parsing fails. -/
def fallback_result (index : ℕ) : ScoreResult :=
  { index := index, relevance_score := 0, categories := [], keywords := [] }

/-- `[_fallback_result(i) for i in range(batch_size)]`. -/
def fallbackList (n : ℕ) : List ScoreResult :=
  (List.range n).map fallback_result

/-- `score = matched.get("relevance_score", 0.0)` followed by the
isinstance/range check: non-numeric scores and scores outside `[0,1]`
become `0.0`. Python `bool` passes `isinstance(score, (int, float))` and
converts via `float` to `0.0`/`1.0`. -/
def coerceScore (v : Option Jv) : ℚ :=
  match v with
  | none => 0
  | some (.num q) => if q < 0 ∨ 1 < q then 0 else q
  | some (.bool b) =>
      let q : ℚ := if b then 1 else 0
      if q < 0 ∨ 1 < q then 0 else q
  | some _ => 0

/-- `categories = matched.get("categories", [])` with the isinstance
check and `[str(c) for c in categories]` (same shape for keywords). -/
def coerceStrList (v : Option Jv) : List String :=
  match v with
  | some (.arr elems) => elems.map pyStr
  | _ => []

/-- `next((r for r in results_raw if r.get("index") == i), None)`.
Scanning stops at the first match; evaluating `r.get` on a non-dict
element raises `AttributeError` (modelled as `.error ()`), which
`score_articles` catches as a whole-batch failure. -/
def findIndexMatch (i : ℕ) : List Jv → Except Unit (Option (List (String × Jv)))
  | [] => .ok none
  | .obj fields :: rest =>
      if pyEqIdx (objGet fields "index") i then .ok (some fields)
      else findIndexMatch i rest
  | _ :: _ => .error ()

/-- The body of the `for i in range(batch_size)` loop of
`_parse_scoring_response`, for one expected index `i`: match the entry by
its `index` key, falling back when the index is missing, and coerce the
score / categories / keywords fields. -/
def parseOne (entries : List Jv) (i : ℕ) : Except Unit ScoreResult := do
  match ← findIndexMatch i entries with
  | none => return fallback_result i
  | some fields =>
      return { index := i,
               relevance_score := coerceScore (objGet fields "relevance_score"),
               categories := coerceStrList (objGet fields "categories"),
               keywords := coerceStrList (objGet fields "keywords") }

/-- The result-accumulating loop of `_parse_scoring_response`: one result
per expected index `start, start+1, …, start+count-1`; an exception from
any iteration aborts the whole loop. -/
def parseLoop (entries : List Jv) (start : ℕ) : ℕ → Except Unit (List ScoreResult)
  | 0 => .ok []
  | count + 1 => do
      let r ← parseOne entries start
      let rest ← parseLoop entries (start + 1) count
      return r :: rest

/-- `_parse_scoring_response(response_text, batch_size)`.
`response` is the `json.loads` view of the body (`none` when the body is
not valid JSON, in which case the `JSONDecodeError` handler returns a full
fallback batch). A parsed body that is not a dict raises `AttributeError`
at `data.get` (`.error ()`); a missing or non-list `results` key yields a
full fallback batch. -/
def parse_scoring_response (response : Option Jv) (batch_size : ℕ) :
    Except Unit (List ScoreResult) :=
  match response with
  | none => .ok (fallbackList batch_size)
  | some (.obj fields) =>
      match objGet fields "results" with
      | some (.arr entries) => parseLoop entries 0 batch_size
      | _ => .ok (fallbackList batch_size)
  | some _ => .error ()

/-- Outcome of one scorer Gemini call: `none` when
`_call_gemini_with_retry` exhausts its retries and re-raises; otherwise
the response body as parsed by `json.loads` (`some none` = not JSON). -/
def LlmOutcome : Type := Option (Option Jv)

/-- The per-batch `try/except` of `score_articles`: a call that raises, or
a parse that raises, degrades the whole batch to fallback results. -/
def batchResults (o : LlmOutcome) (batch_size : ℕ) : List ScoreResult :=
  match o with
  | none => fallbackList batch_size
  | some response =>
      match parse_scoring_response response batch_size with
      | .ok results => results
      | .error _ => fallbackList batch_size

/-- `score_articles(articles, …)`: the batch loop. Batches are the slices
`articles[k : k + batch_size]` for `k = 0, batch_size, 2·batch_size, …`
(Python `range(0, len, step)` raises on a zero step; that case is modelled
as producing no batches). `oracle b` is the outcome of the `b`-th Gemini
call; a failed call or a parse exception degrades that one batch to
fallback results, and the per-batch result lists are concatenated in input
order. The articles' contents only shape the prompt, which the oracle
abstracts. -/
def score_articles (articles : List α) (oracle : ℕ → LlmOutcome) (batch_size : ℕ) :
    List ScoreResult :=
  if batch_size = 0 then [] else
  match articles with
  | [] => []
  | a :: rest =>
      batchResults (oracle 0) (a :: rest.take (batch_size - 1)).length
        ++ score_articles (rest.drop (batch_size - 1)) (fun b => oracle (b + 1)) batch_size
termination_by articles.length
decreasing_by
  simp only [List.length_drop, List.length_cons]
  omega

/-- Whether a parsed JSON value is a dict (safe to call `.get` on). -/
def isObjB : Jv → Bool
  | .obj _ => true
  | _ => false

/-- Whether entry `e` of the `results` array matches expected index `i`
(the generator condition `r.get("index") == i`, for dict entries). -/
def matchesB (i : ℕ) : Jv → Bool
  | .obj fields => pyEqIdx (objGet fields "index") i
  | _ => false

/-- The fields of a dict value (`[]` for non-dicts). -/
def jvFields : Jv → List (String × Jv)
  | .obj fields => fields
  | _ => []

/-- A `relevance_score` value the code coerces to `0.0`: a missing key, a
non-numeric value (Python counts `bool` as numeric), or a number outside
`[0, 1]`. -/
def scoreMalformedB : Option Jv → Bool
  | none => true
  | some (.num q) => q < 0 ∨ 1 < q
  | some (.bool _) => false
  | some _ => true

/-- The record `_parse_scoring_response` appends for a matched entry. -/
def matchedRecord (i : ℕ) (fields : List (String × Jv)) : ScoreResult :=
  { index := i, relevance_score := coerceScore (objGet fields "relevance_score"),
    categories := coerceStrList (objGet fields "categories"),
    keywords := coerceStrList (objGet fields "keywords") }

/-- The scoring result that lands at offset `i` of a batch of size `n`
whose LLM outcome is `o`: the parsed record matched to per-batch index
`i`, or the fallback record. -/
def resultForSlot (o : LlmOutcome) (n i : ℕ) : ScoreResult :=
  match o with
  | none => fallback_result i
  | some response =>
      match parse_scoring_response response n with
      | .ok results => results.getD i (fallback_result i)
      | .error _ => fallback_result i

/-! ## Pipeline orchestrator (`backend/services/pipeline.py`) -/

/-- An article dict as returned by the collector. `published_at` is kept
in its already-`isoformat`-ed form, which is all the pipeline reads. -/
structure CollectedArticle where
  source_feed : String
  source_url : String
  title : String
  author : Option String
  published_at : Option String
  raw_content : Option String
  deriving Repr, DecidableEq

/-- The article dict after `_stage_score` merged the scoring result in. -/
structure ScoredArticle extends CollectedArticle where
  relevance_score : ℚ
  categories : List String
  keywords : List String
  deriving Repr, DecidableEq

/-- The article dict after `_stage_summarize` set its `summary` key (the
stage always sets it: to the generated text, or to `""` on failure). -/
structure SummarizedArticle extends ScoredArticle where
  summary : String
  deriving Repr, DecidableEq

/-- A row of the `articles` table as built by `_stage_persist`. The
`categories`/`keywords` columns hold `json.dumps` of the lists; the
serialization is kept as the lists themselves. -/
structure ArticleRow where
  source_feed : String
  source_url : String
  title : String
  author : Option String
  published_at : Option String
  raw_content : Option String
  summary : Option String
  relevance_score : Option ℚ
  categories : List String
  keywords : List String
  newsletter_date : String
  deriving Repr, DecidableEq

/-- The stats record returned by `run_daily_pipeline`. -/
structure PipelineResult where
  articles_collected : ℕ
  articles_scored : ℕ
  articles_filtered : ℕ
  articles_saved : ℕ
  newsletter_date : String
  deriving Repr, DecidableEq

/-- `_stage_score`: merge scoring results into the article dicts by
position. `outcome` is the result of the `await score_articles(...)` call;
`.error` is the `except` branch, which substitutes zero-score results for
every article and continues. -/
def stage_score (articles : List CollectedArticle)
    (outcome : Except Unit (List ScoreResult)) : List ScoredArticle :=
  let score_results : List ScoreResult :=
    match outcome with
    | .ok results => results
    | .error _ =>
        (List.range articles.length).map
          (fun i => { index := i, relevance_score := 0, categories := [], keywords := [] })
  articles.enum.map (fun p =>
    match score_results[p.1]? with
    | some r =>
        { toCollectedArticle := p.2, relevance_score := r.relevance_score,
          categories := r.categories, keywords := r.keywords }
    | none =>
        { toCollectedArticle := p.2, relevance_score := 0,
          categories := [], keywords := [] })

/-- Python's stable `list.sort(key=score, reverse=True)`: insert an
element before the first strictly-smaller score, after equal ones. -/
def insertDesc (a : ScoredArticle) : List ScoredArticle → List ScoredArticle
  | [] => [a]
  | b :: rest =>
      if b.relevance_score ≤ a.relevance_score then a :: b :: rest
      else b :: insertDesc a rest

/-- Stable descending sort by `relevance_score` (ties keep input order),
the behavior of `above_threshold.sort(key=…, reverse=True)`. -/
def sortByScoreDesc : List ScoredArticle → List ScoredArticle
  | [] => []
  | a :: rest => insertDesc a (sortByScoreDesc rest)

/-- `_stage_filter`: keep score ≥ threshold, sort by score descending
(stable), truncate to `max_articles` (`settings.pipeline.max_articles_per_newsletter`). -/
def stage_filter (articles : List ScoredArticle) (threshold : ℚ) (max_articles : ℕ) :
    List ScoredArticle :=
  (sortByScoreDesc (articles.filter (fun a => threshold ≤ a.relevance_score))).take
    max_articles

/-- The `for article in articles` loop of `_stage_summarize`, with `i` the
number of summarizer calls already made. -/
def stage_summarize_loop (summaries : ℕ → Option String) (i : ℕ) :
    List ScoredArticle → List SummarizedArticle
  | [] => []
  | a :: rest =>
      (match summaries i with
        | some text => { toScoredArticle := a, summary := text }
        | none => { toScoredArticle := a, summary := "" }) ::
      stage_summarize_loop summaries (i + 1) rest

/-- `_stage_summarize`: one `generate_basic_summary` call per article, in
order; `summaries i` is the outcome of the `i`-th call (`none` = the call
raised). A failure is caught per-article and the summary set to `""`. -/
def stage_summarize (articles : List ScoredArticle) (summaries : ℕ → Option String) :
    List SummarizedArticle :=
  stage_summarize_loop summaries 0 articles

/-- The row dict `_stage_persist` builds for one article. -/
def buildRow (a : SummarizedArticle) (newsletter_date : String) : ArticleRow :=
  { source_feed := a.source_feed, source_url := a.source_url, title := a.title,
    author := a.author, published_at := a.published_at,
    raw_content := a.raw_content, summary := some a.summary,
    relevance_score := some a.relevance_score, categories := a.categories,
    keywords := a.keywords, newsletter_date := newsletter_date }

/-- Modelled from the spec: the exact storage schema is out of the
repository's backend sources, and the spec's data model declares the
candidate article's "source URL (unique key)"; an
`client.table("articles").insert(row).execute()` therefore fails (raises)
when a row with the same `source_url` already exists, and appends the row
otherwise. -/
def insertRow (db : List ArticleRow) (row : ArticleRow) : Option (List ArticleRow) :=
  if db.any (fun r => r.source_url = row.source_url) then none
  else some (db ++ [row])

/-- `_stage_persist`: insert each article's row, counting successes; a
failed insert is caught and skipped. Returns the new table contents and
the saved count. -/
def stage_persist (db : List ArticleRow) (articles : List SummarizedArticle)
    (newsletter_date : String) : List ArticleRow × ℕ :=
  articles.foldl
    (fun st a =>
      match insertRow st.1 (buildRow a newsletter_date) with
      | some db' => (db', st.2 + 1)
      | none => (st.1, st.2))
    (db, 0)

/-- `run_daily_pipeline`, with the collector's result, the scorer call's
outcome and the per-article summarizer outcomes supplied as parameters
(stage 2, loading interests, only shapes the scorer prompt, which the
score outcome already abstracts). Returns the stats record and the new
`articles` table contents. -/
def run_daily_pipeline (collected : List CollectedArticle)
    (scoreOutcome : Except Unit (List ScoreResult))
    (summaries : ℕ → Option String) (threshold : ℚ) (max_articles : ℕ)
    (db : List ArticleRow) (newsletter_date : String) :
    PipelineResult × List ArticleRow :=
  if collected.isEmpty then
    ({ articles_collected := 0, articles_scored := 0, articles_filtered := 0,
       articles_saved := 0, newsletter_date := newsletter_date }, db)
  else
    let scored := stage_score collected scoreOutcome
    let filtered := stage_filter scored threshold max_articles
    let summarized := stage_summarize filtered summaries
    let persisted := stage_persist db summarized newsletter_date
    ({ articles_collected := collected.length, articles_scored := scored.length,
       articles_filtered := filtered.length, articles_saved := persisted.2,
       newsletter_date := newsletter_date }, persisted.1)

/-! ## Interest store (`backend/services/interests.py`)

One user's `user_interests` rows, as a list (the DB keys rows uniquely by
`(user_id, keyword)`). Timestamps are rationals, `days` units. -/

structure InterestRow where
  keyword : String
  weight : ℚ
  source : Option String
  updated_at : ℚ
  deriving Repr, DecidableEq

/-- The article data `_fetch_article` selects (`id, keywords, source_feed`);
an article lookup table maps ids to it (`none` = article not found). -/
structure InterestArticle where
  keywords : List String
  source_feed : Option String
  deriving Repr, DecidableEq

/-- The single-row view of `user_interests` for one keyword (the DB holds
at most one row per `(user, keyword)`; `find?` returns the first). -/
def lookupInterest (s : List InterestRow) (kw : String) : Option InterestRow :=
  s.find? (fun r => r.keyword = kw)

/-- Supabase `upsert` with all columns given and
`on_conflict="user_id,keyword"`: replace the row for this keyword, or
append a new one. -/
def upsertFull (s : List InterestRow) (row : InterestRow) : List InterestRow :=
  if s.any (fun r => r.keyword = row.keyword) then
    s.map (fun r => if r.keyword = row.keyword then row else r)
  else s ++ [row]

/-- Supabase `upsert` with only `weight` and `updated_at` given (the
unlike path): update those columns of an existing row, keeping `source`;
insert a row with a null `source` otherwise. -/
def upsertPartial (s : List InterestRow) (kw : String) (w : ℚ) (t : ℚ) :
    List InterestRow :=
  if s.any (fun r => r.keyword = kw) then
    s.map (fun r => if r.keyword = kw then { r with weight := w, updated_at := t } else r)
  else s ++ [{ keyword := kw, weight := w, source := none, updated_at := t }]

/-- `delete().eq("user_id", …).eq("keyword", …)`. -/
def deleteInterest (s : List InterestRow) (kw : String) : List InterestRow :=
  s.filter (fun r => ¬ r.keyword = kw)

/-- `update_interests_on_like(client, user_id, article_id, settings)`:
fetch the article's keywords, snapshot the existing weights once, then for
each keyword upsert `existing-or-0 + increment` with the article's feed as
source and a fresh timestamp. `increment` is
`settings.interests.like_weight_increment`. -/
def update_interests_on_like (articles : ℕ → Option InterestArticle)
    (s : List InterestRow) (article_id : ℕ) (increment : ℚ) (now : ℚ) :
    List InterestRow :=
  match articles article_id with
  | none => s
  | some art =>
      if art.keywords.isEmpty then s
      else
        let existing : String → Option ℚ :=
          fun kw => (lookupInterest s kw).map (fun r => r.weight)
        art.keywords.foldl
          (fun st kw =>
            upsertFull st
              { keyword := kw, weight := (existing kw).getD 0 + increment,
                source := art.source_feed, updated_at := now })
          s

/-- `remove_interests_on_unlike`: snapshot existing weights once; keywords
with no row are skipped; `existing − decrement ≤ 0` deletes the row,
otherwise the weight and timestamp are upserted. The decrement is the
same `settings.interests.like_weight_increment`. -/
def remove_interests_on_unlike (articles : ℕ → Option InterestArticle)
    (s : List InterestRow) (article_id : ℕ) (decrement : ℚ) (now : ℚ) :
    List InterestRow :=
  match articles article_id with
  | none => s
  | some art =>
      if art.keywords.isEmpty then s
      else
        let existing : String → Option ℚ :=
          fun kw => (lookupInterest s kw).map (fun r => r.weight)
        art.keywords.foldl
          (fun st kw =>
            match existing kw with
            | none => st
            | some w =>
                if w - decrement ≤ 0 then deleteInterest st kw
                else upsertPartial st kw (w - decrement) now)
          s

/-- `apply_time_decay(client, user_id, settings)`: rows last updated
before `now − interval_days` get `weight *= decay_factor`; a result below
`min_weight = 0.01` deletes the row, otherwise weight and timestamp are
updated. Returns the new rows and the count of rows touched. -/
def apply_time_decay (s : List InterestRow) (decay_factor : ℚ)
    (interval_days : ℚ) (now : ℚ) : List InterestRow × ℕ :=
  let stale : InterestRow → Bool := fun r => r.updated_at < now - interval_days
  ( s.filterMap (fun r =>
      if stale r then
        if r.weight * decay_factor < 1 / 100 then none
        else some { r with weight := r.weight * decay_factor, updated_at := now }
      else some r),
    (s.filter stale).length )

/-- One interest-store operation, with the wall-clock time it runs at. -/
inductive InterestOp where
  | like (article_id : ℕ) (now : ℚ)
  | unlike (article_id : ℕ) (now : ℚ)
  | decay (now : ℚ)
  deriving Repr, DecidableEq

/-- Apply one operation under fixed settings
(`like_weight_increment`, `decay_factor`, `decay_interval_days`). -/
def applyInterestOp (articles : ℕ → Option InterestArticle) (increment : ℚ)
    (decay_factor : ℚ) (interval_days : ℚ) (s : List InterestRow) :
    InterestOp → List InterestRow
  | .like article_id now => update_interests_on_like articles s article_id increment now
  | .unlike article_id now => remove_interests_on_unlike articles s article_id increment now
  | .decay now => (apply_time_decay s decay_factor interval_days now).1

/-- Run a sequence of interest-store operations. -/
def runInterestOps (articles : ℕ → Option InterestArticle) (increment : ℚ)
    (decay_factor : ℚ) (interval_days : ℚ) (s : List InterestRow)
    (ops : List InterestOp) : List InterestRow :=
  ops.foldl (applyInterestOp articles increment decay_factor interval_days) s

/-! ## Digest synthesizer (`backend/services/digest.py`) -/

/-- One thematic section of a digest. -/
structure DigestSection where
  theme : String
  title : String
  body : String
  article_ids : List ℤ
  deriving Repr, DecidableEq

/-- The structured digest content. -/
structure DigestContent where
  headline : String
  sections : List DigestSection
  key_takeaways : List String
  connections : String
  deriving Repr, DecidableEq

/-- `_NO_ARTICLES_DIGEST`, the empty sentinel. -/
def NO_ARTICLES_DIGEST : DigestContent :=
  { headline := "", sections := [], key_takeaways := [], connections := "" }

/-- Python truthiness of a JSON value (`section.get("article_ids") or []`). -/
def jvTruthy : Jv → Bool
  | .null => false
  | .bool b => b
  | .num q => ¬ q = 0
  | .str s => ¬ s.isEmpty
  | .arr elems => ¬ elems.isEmpty
  | .obj fields => ¬ fields.isEmpty

/-- `[int(article_id) for article_id in raw if isinstance(article_id, int | float)]`
after `raw = section.get("article_ids") or []`: a falsy or missing value
iterates as empty; iterating a string or dict yields no ints; iterating a
number or `True` raises `TypeError` (`.error ()`); Python bools pass the
isinstance test and convert to 0/1. -/
def parseArticleIds (v : Option Jv) : Except Unit (List ℤ) :=
  match v with
  | none => .ok []
  | some raw =>
      if ¬ jvTruthy raw then .ok []
      else
        match raw with
        | .arr elems =>
            .ok (elems.filterMap (fun e =>
              match e with
              | .num q => some (pyTruncInt q)
              | .bool b => some (if b then 1 else 0)
              | _ => none))
        | .str _ => .ok []
        | .obj _ => .ok []
        | _ => .error ()

/-- Parse one entry of the `sections` array (non-dict entries are
skipped by the caller). -/
def parseSection (fields : List (String × Jv)) : Except Unit DigestSection := do
  let ids ← parseArticleIds (objGet fields "article_ids")
  return { theme := pyStr ((objGet fields "theme").getD (.str "")),
           title := pyStr ((objGet fields "title").getD (.str "")),
           body := pyStr ((objGet fields "body").getD (.str "")),
           article_ids := ids }

/-- The `sections` loop of `_parse_digest_response`. -/
def parseSections : List Jv → Except Unit (List DigestSection)
  | [] => .ok []
  | .obj fields :: rest => do
      let s ← parseSection fields
      let others ← parseSections rest
      return s :: others
  | _ :: rest => parseSections rest

/-- `_parse_digest_response(text)`: a body that is not JSON returns the
sentinel (the `JSONDecodeError` handler); a parsed body that is not a dict
raises `AttributeError`; otherwise every field is defaulted piecewise. -/
def parse_digest_response (response : Option Jv) : Except Unit DigestContent :=
  match response with
  | none => .ok NO_ARTICLES_DIGEST
  | some (.obj fields) => do
      let headline :=
        match objGet fields "headline" with
        | some (.str s) => s
        | _ => ""
      let sections ←
        match objGet fields "sections" with
        | some (.arr elems) => parseSections elems
        | _ => .ok []
      let key_takeaways :=
        match objGet fields "key_takeaways" with
        | some (.arr elems) => elems.map pyStr
        | _ => []
      let connections :=
        match objGet fields "connections" with
        | some (.str s) => s
        | _ => ""
      return { headline := headline, sections := sections,
               key_takeaways := key_takeaways, connections := connections }
  | some _ => .error ()

/-- A row of the day's `articles` query, as `generate_daily_digest` uses
it: only `id` flows into the returned value (the other selected columns
shape the prompt, which the LLM oracle abstracts). -/
structure DigestArticleRow where
  id : ℤ
  deriving Repr, DecidableEq

/-- The `index_to_id` remapping: 1-based prompt indices to article ids,
out-of-range indices dropped. -/
def remapIds (ids : List ℤ) (idx : ℤ) : Option ℤ :=
  if 1 ≤ idx ∧ idx ≤ ids.length then ids.get? (idx - 1).toNat else none

/-- `generate_daily_digest(client, digest_date)`: `rows` is the result of
the day's `articles` query (ordered by relevance descending); `outcome` is
the Gemini call (`none` = raised after retries, `some r` = returned a body
that `json.loads` views as `r`). Returns the digest content and the full
list of the day's article ids. -/
def generate_daily_digest (rows : List DigestArticleRow)
    (outcome : Option (Option Jv)) : DigestContent × List ℤ :=
  if rows.isEmpty then (NO_ARTICLES_DIGEST, [])
  else
    let all_article_ids := rows.map (fun r => r.id)
    match outcome with
    | none => (NO_ARTICLES_DIGEST, all_article_ids)
    | some response =>
        match parse_digest_response response with
        | .error _ => (NO_ARTICLES_DIGEST, all_article_ids)
        | .ok digest =>
            ({ digest with
                sections := digest.sections.map (fun sec =>
                  { sec with
                      article_ids := sec.article_ids.filterMap (remapIds all_article_ids) }) },
             all_article_ids)

/-! ## Concrete inputs used by witnesses and counterexamples -/

/-- A scorer results array with one matched entry whose score is out of
range (index 0, score 2) — indices 1 and 2 of a 3-item batch are missing. -/
def c4entries : List Jv :=
  [Jv.obj [("index", Jv.num 0), ("relevance_score", Jv.num 2),
           ("categories", Jv.arr [Jv.str "AI/ML"]), ("keywords", Jv.arr [Jv.str "llm"])]]

/-- A collector article for pipeline tests. -/
def cArticle (i : ℕ) : CollectedArticle :=
  { source_feed := "Test Feed", source_url := "https://example.com/article-" ++ toString i,
    title := "Article " ++ toString i, author := none, published_at := none,
    raw_content := some "Some content about technology." }

/-- Summarizer outcomes: the second article's call raises. -/
def c3summaries : ℕ → Option String :=
  fun i => if i = 1 then none else some "Test summary text."

/-- A scored article (score 1) for persist tests. -/
def c3scored (i : ℕ) : ScoredArticle :=
  { toCollectedArticle := cArticle i, relevance_score := 1,
    categories := ["AI/ML"], keywords := ["python"] }

/-- A summarized article for persist tests. -/
def c5article : SummarizedArticle :=
  { toScoredArticle := c3scored 0, summary := "Test summary text." }

/-- A pre-existing `articles` row carrying a given newsletter date. -/
def c6row : ArticleRow :=
  { source_feed := "Test Feed", source_url := "https://example.com/old",
    title := "Old", author := none, published_at := none, raw_content := none,
    summary := some "s", relevance_score := some 1, categories := [],
    keywords := [], newsletter_date := "2026-02-18" }

/-- An `articles` table already holding 20 rows for the period. -/
def c6db : List ArticleRow := List.replicate 20 c6row

/-- The interest-store article lookup: article 1 has keyword `ai`. -/
def c7articles : ℕ → Option InterestArticle :=
  fun article_id =>
    if article_id = 1 then some { keywords := ["ai"], source_feed := some "Test Feed" }
    else none

/-- Like / decay / unlike sequence under the default settings
(`like_weight_increment = 1.0`, `decay_factor = 0.9`,
`decay_interval_days = 7`): six decay intervals, a second like, four more
decay intervals, then an unlike. -/
def c7ops : List InterestOp :=
  [.like 1 0, .decay 8, .decay 16, .decay 24, .decay 32, .decay 40, .decay 48,
   .like 1 48, .decay 56, .decay 64, .decay 72, .decay 80, .unlike 1 80]

/-- A single-row interest store with an integer weight. -/
def c9store : List InterestRow :=
  [{ keyword := "ai", weight := 2, source := some "Test Feed", updated_at := 0 }]

/-- The day's digest article rows. -/
def c10rows : List DigestArticleRow := [{ id := 101 }, { id := 102 }, { id := 103 }]

/-! ## Scorer lemmas and theorems (C1, C4) -/

theorem fallbackList_length (n : ℕ) : (fallbackList n).length = n := by
  simp [fallbackList]

theorem fallbackList_getElem? (hi : i < n) :
    (fallbackList n)[i]? = some (fallback_result i) := by
  simp [fallbackList, List.getElem?_map, List.getElem?_range hi]

theorem parseLoop_ok_length (entries : List Jv) :
    ∀ count start rs, parseLoop entries start count = .ok rs → rs.length = count := by
  intro count
  induction count with
  | zero => intro start rs h; simp [parseLoop] at h; simp [← h]
  | succ k ih =>
      intro start rs h
      simp only [parseLoop, bind, Except.bind] at h
      cases h1 : parseOne entries start with
      | error e => rw [h1] at h; simp at h
      | ok r =>
          rw [h1] at h
          cases h2 : parseLoop entries (start + 1) k with
          | error e => rw [h2] at h; simp at h
          | ok rest =>
              rw [h2] at h
              simp only [pure, Except.pure, Except.ok.injEq] at h
              subst h
              simp [ih _ _ h2]

theorem parseLoop_ok_getElem? (entries : List Jv) :
    ∀ count start rs, parseLoop entries start count = .ok rs →
      ∀ j < count, ∃ r, parseOne entries (start + j) = .ok r ∧ rs[j]? = some r := by
  intro count
  induction count with
  | zero => intro start rs _ j hj; omega
  | succ k ih =>
      intro start rs h j hj
      simp only [parseLoop, bind, Except.bind] at h
      cases h1 : parseOne entries start with
      | error e => rw [h1] at h; simp at h
      | ok r =>
          rw [h1] at h
          cases h2 : parseLoop entries (start + 1) k with
          | error e => rw [h2] at h; simp at h
          | ok rest =>
              rw [h2] at h
              simp only [pure, Except.pure, Except.ok.injEq] at h
              subst h
              cases j with
              | zero => exact ⟨r, by simpa using h1, by simp⟩
              | succ j' =>
                  obtain ⟨r', hr', hget⟩ := ih (start + 1) rest h2 j' (by omega)
                  refine ⟨r', ?_, by simpa using hget⟩
                  have : start + 1 + j' = start + (j' + 1) := by omega
                  rwa [this] at hr'

theorem parse_ok_length {response : Option Jv} {n : ℕ} {rs : List ScoreResult}
    (h : parse_scoring_response response n = .ok rs) : rs.length = n := by
  unfold parse_scoring_response at h
  split at h
  · simp only [Except.ok.injEq] at h
    rw [← h, fallbackList_length]
  · split at h
    · exact parseLoop_ok_length _ n 0 rs h
    · simp only [Except.ok.injEq] at h
      rw [← h, fallbackList_length]
  · exact Except.noConfusion h

theorem batchResults_length (o : LlmOutcome) (n : ℕ) : (batchResults o n).length = n := by
  cases o with
  | none => simp only [batchResults]; exact fallbackList_length n
  | some response =>
      cases h : parse_scoring_response response n with
      | ok results =>
          simp only [batchResults, h]
          exact parse_ok_length h
      | error e =>
          simp only [batchResults, h]
          exact fallbackList_length n

theorem batchResults_getElem? (o : LlmOutcome) (hi : i < n) :
    (batchResults o n)[i]? = some (resultForSlot o n i) := by
  cases o with
  | none => simp only [batchResults, resultForSlot]; exact fallbackList_getElem? hi
  | some response =>
      cases h : parse_scoring_response response n with
      | ok results =>
          simp only [batchResults, resultForSlot, h]
          have hlen : results.length = n := parse_ok_length h
          have hi' : i < results.length := by omega
          simp [List.getD_eq_getElem?_getD, List.getElem?_eq_getElem hi']
      | error e =>
          simp only [batchResults, resultForSlot, h]
          exact fallbackList_getElem? hi

theorem score_articles_nil {α} (oracle : ℕ → LlmOutcome) (bs : ℕ) :
    score_articles ([] : List α) oracle bs = [] := by
  unfold score_articles
  split <;> rfl

theorem score_articles_cons {α} (oracle : ℕ → LlmOutcome) {bs : ℕ} (hbs : bs ≠ 0)
    (a : α) (rest : List α) :
    score_articles (a :: rest) oracle bs =
      batchResults (oracle 0) (a :: rest.take (bs - 1)).length
        ++ score_articles (rest.drop (bs - 1)) (fun b => oracle (b + 1)) bs := by
  conv_lhs => rw [score_articles]
  simp [hbs]

theorem score_articles_length {α} {bs : ℕ} (hbs : 0 < bs) :
    ∀ (l : List α) (oracle : ℕ → LlmOutcome),
      (score_articles l oracle bs).length = l.length := by
  have H : ∀ (n : ℕ) (l : List α), l.length = n → ∀ oracle : ℕ → LlmOutcome,
      (score_articles l oracle bs).length = l.length := by
    intro n
    induction n using Nat.strong_induction_on with
    | _ n ih =>
        intro l hl oracle
        match l with
        | [] =>
            rw [score_articles_nil]
            rfl
        | a :: rest =>
            rw [score_articles_cons oracle (by omega) a rest]
            have hrec := ih (rest.length - (bs - 1))
              (by simp at hl; omega) (rest.drop (bs - 1)) (by simp) (fun b => oracle (b + 1))
            simp only [List.length_append, batchResults_length, hrec]
            simp only [List.length_cons, List.length_take, List.length_drop]
            omega
  intro l oracle
  exact H l.length l rfl oracle

theorem score_articles_getElem? {α} {bs : ℕ} (hbs : 0 < bs) :
    ∀ (l : List α) (oracle : ℕ → LlmOutcome) (p : ℕ), p < l.length →
      (score_articles l oracle bs)[p]? =
        some (resultForSlot (oracle (p / bs))
          (min bs (l.length - bs * (p / bs))) (p % bs)) := by
  have H : ∀ (n : ℕ) (l : List α), l.length = n → ∀ (oracle : ℕ → LlmOutcome) (p : ℕ),
      p < l.length →
      (score_articles l oracle bs)[p]? =
        some (resultForSlot (oracle (p / bs))
          (min bs (l.length - bs * (p / bs))) (p % bs)) := by
    intro n
    induction n using Nat.strong_induction_on with
    | _ n ih =>
        intro l hl oracle p hp
        match l with
        | [] => simp at hp
        | a :: rest =>
            have hp2 : p < (a :: rest).length := hp
            simp only [List.length_cons] at hp2
            have hmlen : (a :: rest.take (bs - 1)).length = min bs (a :: rest).length := by
              simp only [List.length_cons, List.length_take]
              omega
            rw [score_articles_cons oracle (by omega) a rest]
            by_cases hpm : p < min bs (a :: rest).length
            · rw [List.getElem?_append_left (by rw [batchResults_length, hmlen]; exact hpm)]
              have hpbs : p < bs := lt_of_lt_of_le hpm (min_le_left _ _)
              rw [batchResults_getElem? _ (by rw [hmlen]; exact hpm)]
              rw [hmlen, Nat.div_eq_of_lt hpbs, Nat.mod_eq_of_lt hpbs, Nat.mul_zero,
                Nat.sub_zero]
            · have hpm2 : ¬ p < min bs (rest.length + 1) := by
                simp only [List.length_cons] at hpm
                exact hpm
              have hbsp : bs ≤ p := by omega
              have hmbs : (a :: rest.take (bs - 1)).length = bs := by
                rw [hmlen]
                simp only [List.length_cons]
                omega
              rw [List.getElem?_append_right (by rw [batchResults_length, hmbs]; exact hbsp)]
              rw [batchResults_length, hmbs]
              have hdrop : (rest.drop (bs - 1)).length = (a :: rest).length - bs := by
                simp only [List.length_drop, List.length_cons]
                omega
              have hp' : p - bs < (rest.drop (bs - 1)).length := by
                rw [hdrop]
                simp only [List.length_cons]
                omega
              rw [ih ((a :: rest).length - bs)
                (by simp only [List.length_cons] at hl ⊢; omega)
                (rest.drop (bs - 1)) hdrop (fun b => oracle (b + 1)) (p - bs) hp']
              rw [hdrop]
              have hpeq : p = (p - bs) + bs := by omega
              conv_rhs => rw [hpeq]
              rw [Nat.add_div_right _ hbs, Nat.add_mod_right]
              have harith : (a :: rest).length - bs * ((p - bs) / bs + 1)
                  = (a :: rest).length - bs - bs * ((p - bs) / bs) := by
                rw [Nat.mul_succ]
                omega
              rw [harith]
  intro l oracle p hp
  exact H l.length l rfl oracle p hp

theorem find?_eq_head?_filter (p : α → Bool) (l : List α) :
    l.find? p = (l.filter p).head? := by
  induction l with
  | nil => rfl
  | cons a rest ih =>
      by_cases h : p a
      · simp [List.find?_cons, List.filter_cons, h]
      · simp only [List.find?_cons, List.filter_cons, h]
        simp only [Bool.false_eq_true, if_false, ih]

theorem perm_find?_of_countP_le_one {l₁ l₂ : List α} (p : α → Bool)
    (h : l₁.Perm l₂) (hc : l₁.countP p ≤ 1) : l₁.find? p = l₂.find? p := by
  rw [find?_eq_head?_filter, find?_eq_head?_filter]
  have hf : (l₁.filter p).Perm (l₂.filter p) := h.filter p
  have hlen : (l₁.filter p).length ≤ 1 := by
    rw [← List.countP_eq_length_filter]
    exact hc
  match hfl : l₁.filter p, hlen with
  | [], _ =>
      rw [hfl] at hf
      rw [List.perm_nil.mp hf.symm]
  | [x], _ =>
      rw [hfl] at hf
      rw [List.perm_singleton.mp hf.symm]

theorem findIndexMatch_of_all_obj {entries : List Jv}
    (hobj : ∀ e ∈ entries, isObjB e) (i : ℕ) :
    findIndexMatch i entries = .ok ((entries.find? (matchesB i)).map jvFields) := by
  induction entries with
  | nil => rfl
  | cons e rest ih =>
      have he : isObjB e := hobj e (by simp)
      cases e with
      | obj fields =>
          by_cases hmatch : pyEqIdx (objGet fields "index") i
          · simp [findIndexMatch, List.find?_cons, hmatch, matchesB, jvFields]
          · simp only [findIndexMatch, hmatch, if_false, Bool.false_eq_true]
            rw [ih (fun e' he' => hobj e' (by simp [he']))]
            simp [List.find?_cons, matchesB, hmatch]
      | null => simp [isObjB] at he
      | bool b => simp [isObjB] at he
      | num q => simp [isObjB] at he
      | str s => simp [isObjB] at he
      | arr elems => simp [isObjB] at he

theorem parseOne_perm {entries₁ entries₂ : List Jv} (h : entries₁.Perm entries₂)
    (hobj : ∀ e ∈ entries₁, isObjB e)
    (hc : ∀ i, entries₁.countP (matchesB i) ≤ 1) (i : ℕ) :
    parseOne entries₁ i = parseOne entries₂ i := by
  have hobj₂ : ∀ e ∈ entries₂, isObjB e := fun e he => hobj e (h.mem_iff.mpr he)
  unfold parseOne
  rw [findIndexMatch_of_all_obj hobj, findIndexMatch_of_all_obj hobj₂,
    perm_find?_of_countP_le_one _ h (hc i)]

theorem parseLoop_congr {entries₁ entries₂ : List Jv}
    (h : ∀ i, parseOne entries₁ i = parseOne entries₂ i) :
    ∀ count start, parseLoop entries₁ start count = parseLoop entries₂ start count := by
  intro count
  induction count with
  | zero => intro start; rfl
  | succ k ih =>
      intro start
      simp only [parseLoop, h start, ih (start + 1)]

theorem parse_scoring_response_results (entries : List Jv) (n : ℕ) :
    parse_scoring_response (some (.obj [("results", .arr entries)])) n =
      parseLoop entries 0 n := by
  simp [parse_scoring_response, objGet, List.find?]

theorem parseOne_of_all_obj {entries : List Jv} (hobj : ∀ e ∈ entries, isObjB e)
    (i : ℕ) :
    parseOne entries i = .ok (match entries.find? (matchesB i) with
      | none => fallback_result i
      | some e => matchedRecord i (jvFields e)) := by
  unfold parseOne
  rw [findIndexMatch_of_all_obj hobj]
  cases h : entries.find? (matchesB i) with
  | none => simp [bind, Except.bind, pure, Except.pure]
  | some e => simp [bind, Except.bind, pure, Except.pure, matchedRecord]

theorem parseLoop_ok_of_all_obj {entries : List Jv}
    (hobj : ∀ e ∈ entries, isObjB e) :
    ∀ count start, ∃ rs, parseLoop entries start count = .ok rs := by
  intro count
  induction count with
  | zero => intro start; exact ⟨[], rfl⟩
  | succ k ih =>
      intro start
      obtain ⟨rs, hrs⟩ := ih (start + 1)
      refine ⟨(match entries.find? (matchesB start) with
        | none => fallback_result start
        | some e => matchedRecord start (jvFields e)) :: rs, ?_⟩
      simp only [parseLoop, parseOne_of_all_obj hobj, hrs, bind, Except.bind, pure,
        Except.pure]

/-- C1: for every list of candidates and every LLM response ordering,
`score_articles` returns exactly one result per candidate; the result at
position `p` is determined by the response of the batch `p / batch_size`
containing that candidate, matched there by the per-batch index
`p % batch_size` (falling back when unmatched), with batches reassembled
in input order; and a scoring response whose `results` array is reordered
(entries being objects, at most one matching each index) parses to the
same results. -/
theorem scorer_positional_invariant {α : Type} (articles : List α)
    (oracle : ℕ → LlmOutcome) (batch_size : ℕ) (hbs : 0 < batch_size) :
    (score_articles articles oracle batch_size).length = articles.length
    ∧ (∀ p, p < articles.length →
        (score_articles articles oracle batch_size)[p]? =
          some (resultForSlot (oracle (p / batch_size))
            (min batch_size (articles.length - batch_size * (p / batch_size)))
            (p % batch_size)))
    ∧ (∀ (entries₁ entries₂ : List Jv) (n : ℕ), entries₁.Perm entries₂ →
        (∀ e ∈ entries₁, isObjB e) →
        (∀ i, entries₁.countP (matchesB i) ≤ 1) →
        parse_scoring_response (some (.obj [("results", .arr entries₁)])) n =
          parse_scoring_response (some (.obj [("results", .arr entries₂)])) n) := by
  refine ⟨score_articles_length hbs articles oracle,
    fun p hp => score_articles_getElem? hbs articles oracle p hp,
    fun entries₁ entries₂ n hperm hobj hc => ?_⟩
  rw [parse_scoring_response_results, parse_scoring_response_results]
  exact parseLoop_congr (parseOne_perm hperm hobj hc) n 0

theorem scorer_positional_invariant_witness :
    0 < 2 ∧ (score_articles [7, 8, 9] (fun _ => (none : LlmOutcome)) 2).length = 3 :=
  ⟨by decide,
   (scorer_positional_invariant [7, 8, 9] (fun _ => (none : LlmOutcome)) 2 (by decide)).1⟩

/-- C4: for a batch of size `n`, a non-JSON response body parses to `n`
fallback records (score 0, empty categories and keywords) without raising;
for a well-formed response (a JSON object whose `results` is an array of
objects), parsing succeeds with `n` records, an expected index matched by
no entry is substituted by the fallback record, and a matched entry's
missing, non-numeric or out-of-`[0,1]` score is coerced to `0.0` while an
in-range numeric score is kept. -/
theorem parse_scoring_fallback_shape (n : ℕ) (entries : List Jv) (i : ℕ)
    (hobj : ∀ e ∈ entries, isObjB e) (hi : i < n) :
    (parse_scoring_response none n = .ok (fallbackList n)
      ∧ (fallbackList n).length = n
      ∧ (∀ r ∈ fallbackList n,
          r.relevance_score = 0 ∧ r.categories = [] ∧ r.keywords = []))
    ∧ ∃ rs, parse_scoring_response (some (.obj [("results", .arr entries)])) n = .ok rs
        ∧ rs.length = n
        ∧ ((∀ e ∈ entries, matchesB i e = false) → rs[i]? = some (fallback_result i))
        ∧ (∀ fields, findIndexMatch i entries = .ok (some fields) →
            ∃ r, rs[i]? = some r
              ∧ (scoreMalformedB (objGet fields "relevance_score") = true →
                  r.relevance_score = 0)
              ∧ (∀ q, objGet fields "relevance_score" = some (.num q) →
                  0 ≤ q → q ≤ 1 → r.relevance_score = q)) := by
  constructor
  · refine ⟨rfl, fallbackList_length n, ?_⟩
    intro r hr
    simp only [fallbackList, List.mem_map] at hr
    obtain ⟨j, _, hj⟩ := hr
    rw [← hj]
    exact ⟨rfl, rfl, rfl⟩
  · obtain ⟨rs, hrs⟩ := parseLoop_ok_of_all_obj hobj n 0
    refine ⟨rs, ?_, parseLoop_ok_length entries n 0 rs hrs, ?_, ?_⟩
    · rw [parse_scoring_response_results]
      exact hrs
    · intro hmiss
      obtain ⟨r, hone, hget⟩ := parseLoop_ok_getElem? entries n 0 rs hrs i hi
      rw [Nat.zero_add] at hone
      rw [parseOne_of_all_obj hobj] at hone
      rw [List.find?_eq_none.mpr (fun e he => by simp [hmiss e he])] at hone
      simp only [Except.ok.injEq] at hone
      rw [hget, ← hone]
    · intro fields hfound
      obtain ⟨r, hone, hget⟩ := parseLoop_ok_getElem? entries n 0 rs hrs i hi
      rw [Nat.zero_add] at hone
      rw [findIndexMatch_of_all_obj hobj] at hfound
      simp only [Except.ok.injEq] at hfound
      cases hfind : entries.find? (matchesB i) with
      | none => rw [hfind] at hfound; simp at hfound
      | some e =>
          rw [hfind] at hfound
          simp only [Option.map_some', Option.some.injEq] at hfound
          rw [parseOne_of_all_obj hobj, hfind] at hone
          simp only [Except.ok.injEq] at hone
          refine ⟨r, hget, ?_, ?_⟩
          · intro hbad
            rw [← hone]
            simp only [matchedRecord, hfound]
            cases hv : objGet fields "relevance_score" with
            | none => simp [coerceScore]
            | some v =>
                cases v with
                | num q =>
                    simp only [scoreMalformedB, hfound, hv] at hbad
                    simp only [coerceScore, hv]
                    rw [if_pos (by exact_mod_cast of_decide_eq_true hbad)]
                | bool b => simp [scoreMalformedB, hv, hfound] at hbad
                | null => simp [coerceScore, hv]
                | str s => simp [coerceScore, hv]
                | arr elems => simp [coerceScore, hv]
                | obj f => simp [coerceScore, hv]
          · intro q hq h0 h1
            rw [← hone]
            simp only [matchedRecord, hfound, coerceScore, hq]
            rw [if_neg (by push_neg; constructor <;> [linarith; linarith])]

theorem parse_scoring_fallback_shape_witness :
    (∀ e ∈ c4entries, isObjB e) ∧ (1 : ℕ) < 3
      ∧ ((parse_scoring_response none 3 = .ok (fallbackList 3)
          ∧ (fallbackList 3).length = 3
          ∧ (∀ r ∈ fallbackList 3,
              r.relevance_score = 0 ∧ r.categories = [] ∧ r.keywords = []))
        ∧ ∃ rs, parse_scoring_response (some (.obj [("results", .arr c4entries)])) 3 = .ok rs
            ∧ rs.length = 3
            ∧ ((∀ e ∈ c4entries, matchesB 1 e = false) → rs[1]? = some (fallback_result 1))
            ∧ (∀ fields, findIndexMatch 1 c4entries = .ok (some fields) →
                ∃ r, rs[1]? = some r
                  ∧ (scoreMalformedB (objGet fields "relevance_score") = true →
                      r.relevance_score = 0)
                  ∧ (∀ q, objGet fields "relevance_score" = some (.num q) →
                      0 ≤ q → q ≤ 1 → r.relevance_score = q))) :=
  ⟨by intro e he; simp only [c4entries, List.mem_singleton] at he; rw [he]; rfl,
   by decide,
   parse_scoring_fallback_shape 3 c4entries 1
     (by intro e he; simp only [c4entries, List.mem_singleton] at he; rw [he]; rfl)
     (by decide)⟩

/-! ## Pipeline lemmas and theorems (C2, C3, C5, C6) -/

theorem stage_score_length (articles : List CollectedArticle)
    (outcome : Except Unit (List ScoreResult)) :
    (stage_score articles outcome).length = articles.length := by
  simp [stage_score]

theorem stage_score_error_scores (articles : List CollectedArticle) (e : Unit) :
    ∀ a ∈ stage_score articles (.error e), a.relevance_score = 0 := by
  intro a ha
  simp only [stage_score, List.mem_map] at ha
  obtain ⟨p, _, hpa⟩ := ha
  cases hzl : ((List.range articles.length).map fun i =>
      ({ index := i, relevance_score := 0, categories := [], keywords := [] } :
        ScoreResult))[p.1]? with
  | none =>
      rw [hzl] at hpa
      rw [← hpa]
  | some r =>
      have hr : r.relevance_score = 0 := by
        rw [List.getElem?_map] at hzl
        cases h2 : (List.range articles.length)[p.1]? with
        | none => rw [h2] at hzl; simp at hzl
        | some j =>
            rw [h2] at hzl
            simp only [Option.map_some', Option.some.injEq] at hzl
            rw [← hzl]
      rw [hzl] at hpa
      rw [← hpa]
      exact hr

theorem stage_filter_of_none_above (articles : List ScoredArticle) (threshold : ℚ)
    (max_articles : ℕ) (h0 : ∀ a ∈ articles, ¬ threshold ≤ a.relevance_score) :
    stage_filter articles threshold max_articles = [] := by
  have hfil : articles.filter (fun a => threshold ≤ a.relevance_score) = [] := by
    rw [List.filter_eq_nil_iff]
    intro a ha
    simpa using h0 a ha
  simp [stage_filter, hfil, sortByScoreDesc]

theorem stage_summarize_loop_length (summaries : ℕ → Option String) :
    ∀ (l : List ScoredArticle) (i : ℕ), (stage_summarize_loop summaries i l).length = l.length := by
  intro l
  induction l with
  | nil => intro i; rfl
  | cons a rest ih => intro i; simp [stage_summarize_loop, ih (i + 1)]

theorem stage_summarize_length (articles : List ScoredArticle)
    (summaries : ℕ → Option String) :
    (stage_summarize articles summaries).length = articles.length :=
  stage_summarize_loop_length summaries articles 0

theorem run_daily_pipeline_stats (collected : List CollectedArticle)
    (scoreOutcome : Except Unit (List ScoreResult)) (summaries : ℕ → Option String)
    (threshold : ℚ) (max_articles : ℕ) (db : List ArticleRow) (date : String)
    (hne : collected ≠ []) :
    run_daily_pipeline collected scoreOutcome summaries threshold max_articles db date =
      ({ articles_collected := collected.length,
         articles_scored := collected.length,
         articles_filtered :=
           (stage_filter (stage_score collected scoreOutcome) threshold max_articles).length,
         articles_saved :=
           (stage_persist db
             (stage_summarize (stage_filter (stage_score collected scoreOutcome)
               threshold max_articles) summaries) date).2,
         newsletter_date := date },
       (stage_persist db
         (stage_summarize (stage_filter (stage_score collected scoreOutcome)
           threshold max_articles) summaries) date).1) := by
  have hE : collected.isEmpty = false := by
    cases collected with
    | nil => exact absurd rfl hne
    | cons a rest => rfl
  simp only [run_daily_pipeline, hE, Bool.false_eq_true, if_false, stage_score_length]

/-- C2 counterexample: two articles are collected and the
`score_articles` call raises (escaping all retries, not merely one batch);
the claim says the run aborts with `articles_scored = 0`, but the stats
report `articles_scored = 2`. -/
theorem pipeline_scorer_failure_counterexample :
    (run_daily_pipeline [cArticle 0, cArticle 1] (.error ())
        (fun _ => some "Test summary text.") (3 / 10) 20 [] "2026-02-18").1.articles_scored
      = 2
    ∧ (2 : ℕ) ≠ 0 := by
  constructor
  · rw [run_daily_pipeline_stats _ _ _ _ _ _ _ (by simp)]
    rfl
  · decide

/-- C2 (amended): when the `score_articles` call raises entirely, the run
does not abort: `_stage_score` substitutes zero-score results and the
pipeline continues, so the stats report the collected count for both
`articles_collected` and `articles_scored`; with a positive relevance
threshold every zero-scored article is filtered out, so
`articles_filtered` and `articles_saved` are zero and nothing is persisted
for the run. -/
theorem pipeline_scorer_failure_degrades (collected : List CollectedArticle)
    (e : Unit) (summaries : ℕ → Option String) (threshold : ℚ) (max_articles : ℕ)
    (db : List ArticleRow) (date : String)
    (hne : collected ≠ []) (hth : 0 < threshold) :
    (run_daily_pipeline collected (.error e) summaries threshold max_articles
        db date).1.articles_collected = collected.length
    ∧ (run_daily_pipeline collected (.error e) summaries threshold max_articles
        db date).1.articles_scored = collected.length
    ∧ (run_daily_pipeline collected (.error e) summaries threshold max_articles
        db date).1.articles_filtered = 0
    ∧ (run_daily_pipeline collected (.error e) summaries threshold max_articles
        db date).1.articles_saved = 0
    ∧ (run_daily_pipeline collected (.error e) summaries threshold max_articles
        db date).2 = db := by
  have hfil : stage_filter (stage_score collected (.error e)) threshold max_articles
      = [] := by
    apply stage_filter_of_none_above
    intro a ha
    rw [stage_score_error_scores collected e a ha]
    exact not_le.mpr hth
  rw [run_daily_pipeline_stats _ _ _ _ _ _ _ hne]
  rw [hfil]
  exact ⟨rfl, rfl, rfl, rfl, rfl⟩

theorem pipeline_scorer_failure_degrades_witness :
    ([cArticle 0, cArticle 1] ≠ ([] : List CollectedArticle)) ∧ (0 : ℚ) < 1
    ∧ (run_daily_pipeline [cArticle 0, cArticle 1] (.error ())
        (fun _ => some "Test summary text.") 1 20 [] "2026-02-18").1.articles_scored = 2 :=
  ⟨by simp, by norm_num,
   (pipeline_scorer_failure_degrades [cArticle 0, cArticle 1] () _ 1 20 [] "2026-02-18"
     (by simp) (by norm_num)).2.1⟩

theorem stage_summarize_loop_getElem? (summaries : ℕ → Option String) :
    ∀ (l : List ScoredArticle) (i j : ℕ) (a : ScoredArticle), l[j]? = some a →
      (stage_summarize_loop summaries i l)[j]? =
        some (match summaries (i + j) with
          | some text => { toScoredArticle := a, summary := text }
          | none => { toScoredArticle := a, summary := "" }) := by
  intro l
  induction l with
  | nil => intro i j a ha; simp at ha
  | cons b rest ih =>
      intro i j a ha
      cases j with
      | zero =>
          simp only [List.getElem?_cons_zero, Option.some.injEq] at ha
          subst ha
          simp [stage_summarize_loop]
      | succ j' =>
          simp only [List.getElem?_cons_succ] at ha
          have := ih (i + 1) j' a ha
          simp only [stage_summarize_loop, List.getElem?_cons_succ]
          rw [this]
          have harith : i + 1 + j' = i + (j' + 1) := by omega
          rw [harith]

theorem buildRow_url (a : SummarizedArticle) (date : String) :
    (buildRow a date).source_url = a.source_url := rfl

theorem insertRow_some {db db' : List ArticleRow} {row : ArticleRow}
    (h : insertRow db row = some db') :
    db' = db ++ [row]
      ∧ (db.any (fun r => r.source_url = row.source_url)) = false := by
  simp only [insertRow] at h
  split at h
  · exact Option.noConfusion h
  · next hany =>
      refine ⟨by simpa using h.symm, ?_⟩
      simpa using hany

theorem insertRow_none {db : List ArticleRow} {row : ArticleRow}
    (h : insertRow db row = none) :
    (db.any (fun r => r.source_url = row.source_url)) = true := by
  simp only [insertRow] at h
  split at h
  · next hany => exact hany
  · exact Option.noConfusion h

theorem stage_persist_shift (date : String) :
    ∀ (articles : List SummarizedArticle) (db : List ArticleRow) (c : ℕ),
      articles.foldl
        (fun st a =>
          match insertRow st.1 (buildRow a date) with
          | some db' => (db', st.2 + 1)
          | none => (st.1, st.2)) (db, c)
      = ((stage_persist db articles date).1, c + (stage_persist db articles date).2) := by
  intro articles
  induction articles with
  | nil => intro db c; simp [stage_persist]
  | cons a rest ih =>
      intro db c
      simp only [stage_persist, List.foldl_cons]
      cases h : insertRow db (buildRow a date) with
      | some db' =>
          simp only [h]
          rw [ih db' (c + 1), ih db' 1]
          refine Prod.ext rfl ?_
          omega
      | none =>
          simp only [h]
          rw [ih db c, ih db 0]
          refine Prod.ext rfl ?_
          omega

theorem stage_persist_nil (db : List ArticleRow) (date : String) :
    stage_persist db [] date = (db, 0) := rfl

theorem stage_persist_cons_ok {db db' : List ArticleRow} {a : SummarizedArticle}
    {date : String} (rest : List SummarizedArticle)
    (h : insertRow db (buildRow a date) = some db') :
    stage_persist db (a :: rest) date
      = ((stage_persist db' rest date).1, (stage_persist db' rest date).2 + 1) := by
  simp only [stage_persist, List.foldl_cons, h]
  rw [stage_persist_shift date rest db' 1]
  refine Prod.ext rfl ?_
  simp only [stage_persist]
  omega

theorem stage_persist_cons_skip {db : List ArticleRow} {a : SummarizedArticle}
    {date : String} (rest : List SummarizedArticle)
    (h : insertRow db (buildRow a date) = none) :
    stage_persist db (a :: rest) date = stage_persist db rest date := by
  simp only [stage_persist, List.foldl_cons, h]

theorem stage_persist_fresh (date : String) :
    ∀ (articles : List SummarizedArticle) (db : List ArticleRow),
      ((articles.map (fun a => a.source_url)).Nodup) →
      (∀ a ∈ articles, ∀ r ∈ db, ¬ r.source_url = a.source_url) →
      stage_persist db articles date
        = (db ++ articles.map (fun a => buildRow a date), articles.length) := by
  intro articles
  induction articles with
  | nil => intro db _ _; simp [stage_persist]
  | cons a rest ih =>
      intro db hnodup hfresh
      have hany : db.any (fun r => r.source_url = (buildRow a date).source_url) = false := by
        rw [List.any_eq_false]
        intro r hr
        simp only [buildRow_url, decide_eq_true_eq]
        exact hfresh a (by simp) r hr
      have hins : insertRow db (buildRow a date) = some (db ++ [buildRow a date]) := by
        simp [insertRow, hany]
      rw [stage_persist_cons_ok rest hins]
      simp only [List.map_cons, List.nodup_cons] at hnodup
      have hfresh' : ∀ b ∈ rest, ∀ r ∈ db ++ [buildRow a date], ¬ r.source_url = b.source_url := by
        intro b hb r hr
        rcases List.mem_append.mp hr with hrdb | hrnew
        · exact hfresh b (by simp [hb]) r hrdb
        · have hr1 : r = buildRow a date := by simpa using hrnew
          rw [hr1, buildRow_url]
          intro hcon
          exact hnodup.1 (by rw [hcon]; exact List.mem_map_of_mem _ hb)
      rw [ih (db ++ [buildRow a date]) hnodup.2 hfresh']
      simp

theorem stage_persist_url_monotone (date : String) :
    ∀ (articles : List SummarizedArticle) (db : List ArticleRow) (u : String),
      u ∈ db.map (fun r => r.source_url) →
      u ∈ (stage_persist db articles date).1.map (fun r => r.source_url) := by
  intro articles
  induction articles with
  | nil => intro db u hu; exact hu
  | cons a rest ih =>
      intro db u hu
      cases h : insertRow db (buildRow a date) with
      | some db' =>
          rw [stage_persist_cons_ok rest h]
          apply ih db'
          rw [(insertRow_some h).1, List.map_append]
          exact List.mem_append_left _ hu
      | none =>
          rw [stage_persist_cons_skip rest h]
          exact ih db u hu

theorem stage_persist_mem_urls (date : String) :
    ∀ (articles : List SummarizedArticle) (db : List ArticleRow) (a : SummarizedArticle),
      a ∈ articles →
      a.source_url ∈ (stage_persist db articles date).1.map (fun r => r.source_url) := by
  intro articles
  induction articles with
  | nil => intro db a ha; simp at ha
  | cons b rest ih =>
      intro db a ha
      rcases List.mem_cons.mp ha with hab | harest
      · subst hab
        cases h : insertRow db (buildRow a date) with
        | some db' =>
            rw [stage_persist_cons_ok rest h]
            apply stage_persist_url_monotone
            rw [(insertRow_some h).1, List.map_append]
            apply List.mem_append_right
            simp [buildRow_url]
        | none =>
            rw [stage_persist_cons_skip rest h]
            apply stage_persist_url_monotone
            have hany := insertRow_none h
            rw [List.any_eq_true] at hany
            obtain ⟨r, hr, hru⟩ := hany
            simp only [buildRow_url, decide_eq_true_eq] at hru
            rw [← hru]
            exact List.mem_map_of_mem _ hr
      · cases h : insertRow db (buildRow b date) with
        | some db' =>
            rw [stage_persist_cons_ok rest h]
            exact ih db' a harest
        | none =>
            rw [stage_persist_cons_skip rest h]
            exact ih db a harest

theorem stage_persist_all_present (date : String) :
    ∀ (articles : List SummarizedArticle) (db : List ArticleRow),
      (∀ a ∈ articles, a.source_url ∈ db.map (fun r => r.source_url)) →
      stage_persist db articles date = (db, 0) := by
  intro articles
  induction articles with
  | nil => intro db _; rfl
  | cons a rest ih =>
      intro db hmem
      have hany : db.any (fun r => r.source_url = (buildRow a date).source_url) = true := by
        rw [List.any_eq_true]
        obtain ⟨r, hr, hru⟩ := List.mem_map.mp (hmem a (by simp))
        exact ⟨r, hr, by simp [buildRow_url, hru]⟩
      have hins : insertRow db (buildRow a date) = none := by
        simp [insertRow, hany]
      rw [stage_persist_cons_skip rest hins]
      exact ih db (fun b hb => hmem b (by simp [hb]))

theorem stage_persist_nodup (date : String) :
    ∀ (articles : List SummarizedArticle) (db : List ArticleRow),
      (db.map (fun r => r.source_url)).Nodup →
      ((stage_persist db articles date).1.map (fun r => r.source_url)).Nodup := by
  intro articles
  induction articles with
  | nil => intro db hdb; exact hdb
  | cons a rest ih =>
      intro db hdb
      cases h : insertRow db (buildRow a date) with
      | some db' =>
          rw [stage_persist_cons_ok rest h]
          apply ih db'
          obtain ⟨hdb', hany⟩ := insertRow_some h
          rw [hdb', List.map_append]
          apply List.Nodup.append hdb (by simp)
          intro u hu hu1
          simp only [List.map_cons, List.map_nil, List.mem_singleton] at hu1
          rw [List.any_eq_false] at hany
          obtain ⟨r, hr, hru⟩ := List.mem_map.mp hu
          have := hany r hr
          simp only [decide_eq_true_eq] at this
          exact this (by rw [hru, hu1, buildRow_url])
      | none =>
          rw [stage_persist_cons_skip rest h]
          exact ih db hdb

theorem stage_summarize_loop_map_url (summaries : ℕ → Option String) :
    ∀ (l : List ScoredArticle) (i : ℕ),
      (stage_summarize_loop summaries i l).map (fun a => a.source_url)
        = l.map (fun a => a.source_url) := by
  intro l
  induction l with
  | nil => intro i; rfl
  | cons a rest ih =>
      intro i
      simp only [stage_summarize_loop, List.map_cons]
      rw [ih (i + 1)]
      cases summaries i <;> rfl

theorem summarize_null_summary_counterexample :
    ((stage_persist [] (stage_summarize [c3scored 0, c3scored 1] c3summaries)
        "2026-02-18").1[1]?).map (fun r => r.summary) = some (some "")
    ∧ some "" ≠ (none : Option String) := by
  constructor
  · decide
  · decide

/-- C3 (amended): a summarizer failure is caught per-article — the run
continues with one output per article, the affected article is persisted
with an empty-string summary (`""`, not null), each article's summary
depends only on its own summarizer outcome, and every other article's
summary and persisted row are unaffected. -/
theorem summarize_per_article_isolation (articles : List ScoredArticle)
    (summaries : ℕ → Option String) (db : List ArticleRow) (date : String)
    (hnodup : (articles.map (fun a => a.source_url)).Nodup)
    (hfresh : ∀ a ∈ articles, ∀ r ∈ db, ¬ r.source_url = a.source_url) :
    (stage_summarize articles summaries).length = articles.length
    ∧ (∀ j a, articles[j]? = some a →
        (stage_summarize articles summaries)[j]? =
          some (match summaries j with
            | some text => { toScoredArticle := a, summary := text }
            | none => { toScoredArticle := a, summary := "" }))
    ∧ (∀ (summaries' : ℕ → Option String) (j : ℕ), summaries j = summaries' j →
        (stage_summarize articles summaries)[j]? =
          (stage_summarize articles summaries')[j]?)
    ∧ stage_persist db (stage_summarize articles summaries) date
        = (db ++ (stage_summarize articles summaries).map (fun a => buildRow a date),
           articles.length) := by
  have hmapurl : ∀ summaries₀ : ℕ → Option String,
      (stage_summarize articles summaries₀).map (fun a => a.source_url)
        = articles.map (fun a => a.source_url) := by
    intro summaries₀
    exact stage_summarize_loop_map_url summaries₀ articles 0
  refine ⟨stage_summarize_length articles summaries, ?_, ?_, ?_⟩
  · intro j a ha
    have := stage_summarize_loop_getElem? summaries articles 0 j a ha
    rw [Nat.zero_add] at this
    exact this
  · intro summaries' j hj
    by_cases hrange : j < articles.length
    · have ha : articles[j]? = some articles[j] := List.getElem?_eq_getElem hrange
      have h1 := stage_summarize_loop_getElem? summaries articles 0 j articles[j] ha
      have h2 := stage_summarize_loop_getElem? summaries' articles 0 j articles[j] ha
      rw [Nat.zero_add] at h1 h2
      show (stage_summarize_loop summaries 0 articles)[j]? =
        (stage_summarize_loop summaries' 0 articles)[j]?
      rw [h1, h2, hj]
    · have hlen := stage_summarize_length articles summaries
      have hlen' := stage_summarize_length articles summaries'
      rw [List.getElem?_eq_none (by omega), List.getElem?_eq_none (by omega)]
  · rw [stage_persist_fresh date _ db (by rw [hmapurl]; exact hnodup) ?_]
    · rw [stage_summarize_length]
    · intro a ha r hr
      have : a.source_url ∈ articles.map (fun b => b.source_url) := by
        rw [← hmapurl summaries]
        exact List.mem_map_of_mem _ ha
      obtain ⟨b, hb, hba⟩ := List.mem_map.mp this
      rw [← hba]
      exact hfresh b hb r hr

theorem summarize_per_article_isolation_witness :
    (([c3scored 0, c3scored 1].map (fun a => a.source_url)).Nodup)
    ∧ (∀ a ∈ [c3scored 0, c3scored 1], ∀ r ∈ ([] : List ArticleRow),
        ¬ r.source_url = a.source_url)
    ∧ (stage_summarize [c3scored 0, c3scored 1] c3summaries).length = 2 :=
  ⟨by decide, by simp,
   (summarize_per_article_isolation [c3scored 0, c3scored 1] c3summaries []
     "2026-02-18" (by decide) (by simp)).1⟩

/-- C5: persisting the filtered-and-summarized set is idempotent keyed by
source URL: the resulting table never holds two rows for one URL, and
running the persist stage a second time with the same articles leaves the
table unchanged (saving nothing new). -/
theorem persist_idempotent_by_url (db : List ArticleRow)
    (articles : List SummarizedArticle) (date : String)
    (hdb : (db.map (fun r => r.source_url)).Nodup) :
    ((stage_persist db articles date).1.map (fun r => r.source_url)).Nodup
    ∧ stage_persist (stage_persist db articles date).1 articles date
        = ((stage_persist db articles date).1, 0) :=
  ⟨stage_persist_nodup date articles db hdb,
   stage_persist_all_present date articles (stage_persist db articles date).1
     (fun a ha => stage_persist_mem_urls date articles db a ha)⟩

theorem persist_idempotent_by_url_witness :
    ((([] : List ArticleRow).map (fun r => r.source_url)).Nodup)
    ∧ stage_persist (stage_persist [] [c5article] "2026-02-18").1 [c5article] "2026-02-18"
        = ((stage_persist [] [c5article] "2026-02-18").1, 0) :=
  ⟨by decide, (persist_idempotent_by_url [] [c5article] "2026-02-18" (by decide)).2⟩

/-- C6 counterexample: the configured cap is 20 and 20 articles are
already persisted for the period (remaining capacity 0), yet a re-run with
one high-scoring collected article still selects it:
`articles_filtered = 1 > 0`. The orchestrator never subtracts the
already-persisted count. -/
theorem filter_ignores_remaining_capacity_counterexample :
    (run_daily_pipeline [cArticle 0]
        (.ok [{ index := 0, relevance_score := 1, categories := ["AI/ML"],
                keywords := ["python"] }])
        (fun _ => some "Test summary text.") (3 / 10) 20 c6db
        "2026-02-18").1.articles_filtered = 1
    ∧ (c6db.filter (fun r => r.newsletter_date = "2026-02-18")).length = 20
    ∧ 20 - 20 < 1 := by
  refine ⟨?_, ?_, by decide⟩
  · rw [run_daily_pipeline_stats _ _ _ _ _ _ _ (by simp)]
    show (stage_filter (stage_score [cArticle 0]
      (.ok [{ index := 0, relevance_score := 1, categories := ["AI/ML"],
              keywords := ["python"] }])) (3 / 10) 20).length = 1
    have hscore : stage_score [cArticle 0]
        (.ok [{ index := 0, relevance_score := 1, categories := ["AI/ML"],
                keywords := ["python"] }])
        = [{ toCollectedArticle := cArticle 0, relevance_score := 1,
             categories := ["AI/ML"], keywords := ["python"] }] := rfl
    rw [hscore]
    have hcond : ((3 : ℚ) / 10 ≤ 1) := by norm_num
    simp only [stage_filter, List.filter_cons, List.filter_nil]
    rw [if_pos (by simpa using hcond)]
    rfl
  · have hall : c6db.filter (fun r => r.newsletter_date = "2026-02-18") = c6db := by
      rw [List.filter_eq_self]
      intro r hr
      simp only [c6db] at hr
      rw [List.eq_of_mem_replicate hr]
      decide
    rw [hall]
    simp [c6db]

/-- C6 (amended): the filter stage's cap is the configured
`max_articles_per_newsletter` itself; the orchestrator does no
remaining-slot accounting, so the number of selected articles is
independent of how many rows are already persisted for the period, and is
bounded only by the configured cap (a mid-period re-run can therefore
exceed the remaining capacity). -/
theorem filter_cap_is_configured_cap (collected : List CollectedArticle)
    (scoreOutcome : Except Unit (List ScoreResult)) (summaries : ℕ → Option String)
    (threshold : ℚ) (max_articles : ℕ) (db db' : List ArticleRow) (date : String) :
    (run_daily_pipeline collected scoreOutcome summaries threshold max_articles
        db date).1.articles_filtered
      = (run_daily_pipeline collected scoreOutcome summaries threshold max_articles
          db' date).1.articles_filtered
    ∧ (run_daily_pipeline collected scoreOutcome summaries threshold max_articles
        db date).1.articles_filtered ≤ max_articles := by
  by_cases hne : collected = []
  · subst hne
    refine ⟨rfl, ?_⟩
    simp [run_daily_pipeline]
  · rw [run_daily_pipeline_stats _ _ _ _ _ _ _ hne,
      run_daily_pipeline_stats _ _ _ _ _ _ _ hne]
    refine ⟨rfl, ?_⟩
    simp only [stage_filter, List.length_take]
    exact min_le_left _ _

/-! ## Interest-store lemmas and theorems (C7, C8, C9) -/

theorem find?_keyword_map {g : InterestRow → InterestRow}
    (hg : ∀ r, (g r).keyword = r.keyword) (kw : String) :
    ∀ s : List InterestRow,
      (s.map g).find? (fun r => r.keyword = kw)
        = (s.find? (fun r => r.keyword = kw)).map g := by
  intro s
  induction s with
  | nil => rfl
  | cons r s' ih =>
      simp only [List.map_cons, List.find?_cons, hg]
      by_cases h : r.keyword = kw
      · simp [h]
      · simp [h, ih]

theorem lookupInterest_upsertFull (s : List InterestRow) (row : InterestRow)
    (kw : String) :
    lookupInterest (upsertFull s row) kw
      = if kw = row.keyword then some row else lookupInterest s kw := by
  unfold upsertFull lookupInterest
  have hg : ∀ r : InterestRow,
      ((fun r => if r.keyword = row.keyword then row else r) r).keyword = r.keyword := by
    intro r
    by_cases h : r.keyword = row.keyword
    · simp [h]
    · simp [h]
  by_cases hany : s.any (fun r => r.keyword = row.keyword)
  · rw [if_pos hany, find?_keyword_map hg kw s]
    by_cases hk : kw = row.keyword
    · rw [if_pos hk]
      rw [List.any_eq_true] at hany
      obtain ⟨r0, hr0, hr0k⟩ := hany
      simp only [decide_eq_true_eq] at hr0k
      cases hfind : s.find? (fun r => r.keyword = kw) with
      | none =>
          rw [List.find?_eq_none] at hfind
          exact absurd (by simp [hr0k, hk]) (hfind r0 hr0)
      | some r1 =>
          have hr1k : r1.keyword = kw := by
            have := List.find?_some hfind
            simpa using this
          simp [hr1k, hk]
    · rw [if_neg hk]
      cases hfind : s.find? (fun r => r.keyword = kw) with
      | none => rfl
      | some r1 =>
          have hr1k : r1.keyword = kw := by
            have := List.find?_some hfind
            simpa using this
          simp only [Option.map_some']
          rw [if_neg (by rw [hr1k]; exact hk)]
  · rw [Bool.not_eq_true] at hany
    rw [if_neg (by simp [hany]), List.find?_append]
    by_cases hk : kw = row.keyword
    · rw [if_pos hk]
      have hnone : s.find? (fun r => r.keyword = kw) = none := by
        rw [List.find?_eq_none]
        intro r hr
        rw [List.any_eq_false] at hany
        have := hany r hr
        simp only [decide_eq_true_eq] at this ⊢
        rw [hk]
        exact this
      rw [hnone, Option.none_or]
      simp [List.find?_cons, hk]
    · rw [if_neg hk]
      cases hfind : s.find? (fun r => r.keyword = kw) with
      | none =>
          rw [Option.none_or, List.find?_cons]
          have hno : (decide (row.keyword = kw)) = false := by
            simp only [decide_eq_false_iff_not]
            exact fun hcon => hk hcon.symm
          rw [hno]
          rfl
      | some r1 => rw [Option.or_some]

theorem lookupInterest_upsertPartial (s : List InterestRow) (kw : String)
    (w t : ℚ) (kw' : String) :
    lookupInterest (upsertPartial s kw w t) kw'
      = if kw' = kw
        then some (match lookupInterest s kw with
          | some r => { r with weight := w, updated_at := t }
          | none => { keyword := kw, weight := w, source := none, updated_at := t })
        else lookupInterest s kw' := by
  unfold upsertPartial lookupInterest
  have hg : ∀ r : InterestRow,
      ((fun r => if r.keyword = kw then { r with weight := w, updated_at := t } else r)
        r).keyword = r.keyword := by
    intro r
    by_cases h : r.keyword = kw
    · simp [h]
    · simp [h]
  by_cases hany : s.any (fun r => r.keyword = kw)
  · rw [if_pos hany, find?_keyword_map hg kw' s]
    by_cases hk : kw' = kw
    · rw [if_pos hk]
      rw [List.any_eq_true] at hany
      obtain ⟨r0, hr0, hr0k⟩ := hany
      simp only [decide_eq_true_eq] at hr0k
      cases hfind : s.find? (fun r => r.keyword = kw) with
      | none =>
          rw [List.find?_eq_none] at hfind
          exact absurd (by simp [hr0k]) (hfind r0 hr0)
      | some r1 =>
          have hr1k : r1.keyword = kw := by
            have := List.find?_some hfind
            simpa using this
          rw [hk, hfind]
          simp [hr1k]
    · rw [if_neg hk]
      cases hfind : s.find? (fun r => r.keyword = kw') with
      | none => rfl
      | some r1 =>
          have hr1k : r1.keyword = kw' := by
            have := List.find?_some hfind
            simpa using this
          simp only [Option.map_some']
          rw [if_neg (by rw [hr1k]; exact hk)]
  · rw [Bool.not_eq_true] at hany
    rw [if_neg (by simp [hany]), List.find?_append]
    have hnone : ∀ u : String, u = kw → s.find? (fun r => r.keyword = u) = none := by
      intro u hu
      rw [List.find?_eq_none]
      intro r hr
      rw [List.any_eq_false] at hany
      have := hany r hr
      simp only [decide_eq_true_eq] at this ⊢
      rw [hu]
      exact this
    by_cases hk : kw' = kw
    · rw [if_pos hk, hnone kw' hk, Option.none_or, hnone kw rfl]
      simp [List.find?_cons, hk]
    · rw [if_neg hk]
      cases hfind : s.find? (fun r => r.keyword = kw') with
      | none =>
          rw [Option.none_or, List.find?_cons]
          have hno : ∀ rnew : InterestRow, rnew.keyword = kw →
              decide (rnew.keyword = kw') = false := by
            intro rnew hk2
            simp only [decide_eq_false_iff_not, hk2]
            exact fun hcon => hk hcon.symm
          rw [hno _ rfl]
          rfl
      | some r1 => rw [Option.or_some]

theorem lookupInterest_delete (s : List InterestRow) (kw kw' : String) :
    lookupInterest (deleteInterest s kw) kw'
      = if kw' = kw then none else lookupInterest s kw' := by
  unfold deleteInterest lookupInterest
  by_cases h : kw' = kw
  · rw [if_pos h, List.find?_eq_none]
    intro a ha
    have hpa := List.of_mem_filter ha
    simp only [decide_eq_true_eq] at hpa ⊢
    rw [h]
    exact hpa
  · rw [if_neg h]
    induction s with
    | nil => rfl
    | cons r s' ih =>
        rw [List.filter_cons]
        by_cases hr : r.keyword = kw
        · have hcond : decide (¬ r.keyword = kw) = false := by simp [hr]
          simp only [hcond, Bool.false_eq_true, if_false]
          have hskip : decide (r.keyword = kw') = false := by
            simp only [decide_eq_false_iff_not]
            exact fun hc => h (by rw [← hc, hr])
          rw [List.find?_cons, hskip]
          exact ih
        · have hcond : decide (¬ r.keyword = kw) = true := by simp [hr]
          simp only [hcond, if_true]
          rw [List.find?_cons, List.find?_cons]
          cases hd : decide (r.keyword = kw') with
          | true => rfl
          | false => exact ih

theorem like_foldl_lookup (wgt : String → ℚ) (src : Option String) (now : ℚ) :
    ∀ (kws : List String) (st : List InterestRow) (kw : String),
      lookupInterest
        (kws.foldl (fun acc k =>
          upsertFull acc
            { keyword := k, weight := wgt k, source := src, updated_at := now }) st) kw
      = if kw ∈ kws
        then some { keyword := kw, weight := wgt kw, source := src, updated_at := now }
        else lookupInterest st kw := by
  intro kws
  induction kws with
  | nil => intro st kw; simp
  | cons k ks ih =>
      intro st kw
      rw [List.foldl_cons, ih]
      by_cases hks : kw ∈ ks
      · simp [hks]
      · by_cases hk : kw = k
        · simp [hks, hk, lookupInterest_upsertFull]
        · simp [hks, hk, lookupInterest_upsertFull]

theorem unlike_foldl_wlookup (existing : String → Option ℚ) (dec now : ℚ) :
    ∀ (kws : List String) (st : List InterestRow) (kw : String),
      (lookupInterest (kws.foldl (fun acc k =>
          match existing k with
          | none => acc
          | some w =>
              if w - dec ≤ 0 then deleteInterest acc k
              else upsertPartial acc k (w - dec) now) st) kw).map (fun r => r.weight)
      = if kw ∈ kws
        then (match existing kw with
          | none => (lookupInterest st kw).map (fun r => r.weight)
          | some w => if w - dec ≤ 0 then none else some (w - dec))
        else (lookupInterest st kw).map (fun r => r.weight) := by
  intro kws
  induction kws with
  | nil => intro st kw; simp
  | cons k ks ih =>
      intro st kw
      rw [List.foldl_cons, ih]
      by_cases hks : kw ∈ ks
      · rw [if_pos hks, if_pos (by simp [hks])]
        cases he : existing kw with
        | some w => rfl
        | none =>
            cases he2 : existing k with
            | none => rfl
            | some w2 =>
                have hkk : ¬ kw = k := by
                  intro hc
                  rw [hc, he2] at he
                  exact Option.noConfusion he
                simp only []
                by_cases hw2 : w2 - dec ≤ 0
                · rw [if_pos hw2, lookupInterest_delete, if_neg hkk]
                · rw [if_neg hw2, lookupInterest_upsertPartial, if_neg hkk]
      · rw [if_neg hks]
        by_cases hk : kw = k
        · subst hk
          rw [if_pos (by simp)]
          cases he2 : existing kw with
          | none => rfl
          | some w2 =>
              simp only []
              by_cases hw2 : w2 - dec ≤ 0
              · rw [if_pos hw2, lookupInterest_delete, if_pos rfl]
                simp [hw2]
              · rw [if_neg hw2, lookupInterest_upsertPartial, if_pos rfl, if_neg hw2]
                cases lookupInterest st kw <;> rfl
        · rw [if_neg (by simp [hks, hk])]
          cases he2 : existing k with
          | none => rfl
          | some w2 =>
              simp only []
              by_cases hw2 : w2 - dec ≤ 0
              · rw [if_pos hw2, lookupInterest_delete, if_neg hk]
              · rw [if_neg hw2, lookupInterest_upsertPartial, if_neg hk]

theorem mem_upsertFull {s : List InterestRow} {row : InterestRow} :
    ∀ r' ∈ upsertFull s row, r' ∈ s ∨ r' = row := by
  intro r' hr'
  unfold upsertFull at hr'
  by_cases hany : s.any (fun r => r.keyword = row.keyword)
  · rw [if_pos hany] at hr'
    obtain ⟨r, hr, hmap⟩ := List.mem_map.mp hr'
    by_cases h : r.keyword = row.keyword
    · right
      rw [← hmap, if_pos h]
    · left
      rw [← hmap, if_neg h]
      exact hr
  · rw [Bool.not_eq_true] at hany
    rw [if_neg (by simp [hany])] at hr'
    rcases List.mem_append.mp hr' with h | h
    · left; exact h
    · right; simpa using h

theorem mem_upsertPartial {s : List InterestRow} {kw : String} {w t : ℚ} :
    ∀ r' ∈ upsertPartial s kw w t, (∃ r ∈ s, r'.weight = r.weight) ∨ r'.weight = w := by
  intro r' hr'
  unfold upsertPartial at hr'
  by_cases hany : s.any (fun r => r.keyword = kw)
  · rw [if_pos hany] at hr'
    obtain ⟨r, hr, hmap⟩ := List.mem_map.mp hr'
    by_cases h : r.keyword = kw
    · right
      rw [← hmap, if_pos h]
    · left
      exact ⟨r, hr, by rw [← hmap, if_neg h]⟩
  · rw [Bool.not_eq_true] at hany
    rw [if_neg (by simp [hany])] at hr'
    rcases List.mem_append.mp hr' with h | h
    · left; exact ⟨r', h, rfl⟩
    · right
      have : r' = { keyword := kw, weight := w, source := none, updated_at := t } := by
        simpa using h
      rw [this]

theorem like_preserves_pos (articles : ℕ → Option InterestArticle)
    (s : List InterestRow) (article_id : ℕ) (increment now : ℚ)
    (hpos : ∀ r ∈ s, 0 < r.weight) (hinc : 0 < increment) :
    ∀ r ∈ update_interests_on_like articles s article_id increment now, 0 < r.weight := by
  unfold update_interests_on_like
  cases hart : articles article_id with
  | none => exact hpos
  | some art =>
      simp only []
      by_cases hke : art.keywords.isEmpty
      · rw [if_pos hke]
        exact hpos
      · rw [if_neg hke]
        have hwgt : ∀ k : String,
            0 < ((lookupInterest s k).map (fun r => r.weight)).getD 0 + increment := by
          intro k
          cases hf : lookupInterest s k with
          | none => simpa using hinc
          | some r =>
              have hr : r ∈ s := List.mem_of_find?_eq_some hf
              have := hpos r hr
              simp only [Option.map_some', Option.getD_some]
              linarith
        have H : ∀ (kws : List String) (st : List InterestRow),
            (∀ r ∈ st, 0 < r.weight) →
            ∀ r ∈ kws.foldl (fun acc kw =>
              upsertFull acc
                { keyword := kw,
                  weight := ((lookupInterest s kw).map (fun r => r.weight)).getD 0 + increment,
                  source := art.source_feed, updated_at := now }) st, 0 < r.weight := by
          intro kws
          induction kws with
          | nil => intro st hst r hr; exact hst r hr
          | cons k ks ih =>
              intro st hst r hr
              rw [List.foldl_cons] at hr
              refine ih _ ?_ r hr
              intro r' hr'
              rcases mem_upsertFull r' hr' with h | h
              · exact hst r' h
              · rw [h]
                exact hwgt k
        exact H art.keywords s hpos

theorem unlike_preserves_pos (articles : ℕ → Option InterestArticle)
    (s : List InterestRow) (article_id : ℕ) (decrement now : ℚ)
    (hpos : ∀ r ∈ s, 0 < r.weight) :
    ∀ r ∈ remove_interests_on_unlike articles s article_id decrement now, 0 < r.weight := by
  unfold remove_interests_on_unlike
  cases hart : articles article_id with
  | none => exact hpos
  | some art =>
      simp only []
      by_cases hke : art.keywords.isEmpty
      · rw [if_pos hke]
        exact hpos
      · rw [if_neg hke]
        have H : ∀ (kws : List String) (st : List InterestRow),
            (∀ r ∈ st, 0 < r.weight) →
            ∀ r ∈ kws.foldl (fun acc kw =>
              match (lookupInterest s kw).map (fun r => r.weight) with
              | none => acc
              | some w =>
                  if w - decrement ≤ 0 then deleteInterest acc kw
                  else upsertPartial acc kw (w - decrement) now) st, 0 < r.weight := by
          intro kws
          induction kws with
          | nil => intro st hst r hr; exact hst r hr
          | cons k ks ih =>
              intro st hst r hr
              rw [List.foldl_cons] at hr
              refine ih _ ?_ r hr
              intro r' hr'
              cases he : (lookupInterest s k).map (fun r => r.weight) with
              | none =>
                  rw [he] at hr'
                  exact hst r' hr'
              | some w =>
                  rw [he] at hr'
                  simp only [] at hr'
                  by_cases hw : w - decrement ≤ 0
                  · rw [if_pos hw] at hr'
                    exact hst r' (List.mem_of_mem_filter hr')
                  · rw [if_neg hw] at hr'
                    rcases mem_upsertPartial r' hr' with ⟨r0, hr0, hw0⟩ | hw0
                    · rw [hw0]; exact hst r0 hr0
                    · rw [hw0]; linarith
        exact H art.keywords s hpos

theorem decay_preserves_pos (s : List InterestRow) (f iv now : ℚ)
    (hpos : ∀ r ∈ s, 0 < r.weight) :
    ∀ r ∈ (apply_time_decay s f iv now).1, 0 < r.weight := by
  intro r hr
  unfold apply_time_decay at hr
  simp only [List.mem_filterMap] at hr
  obtain ⟨r0, hr0, heq⟩ := hr
  by_cases hst : r0.updated_at < now - iv
  · rw [if_pos (decide_eq_true hst)] at heq
    by_cases hmin : r0.weight * f < 1 / 100
    · rw [if_pos hmin] at heq
      exact Option.noConfusion heq
    · rw [if_neg hmin] at heq
      push_neg at hmin
      simp only [Option.some.injEq] at heq
      rw [← heq]
      have : (0 : ℚ) < 1 / 100 := by norm_num
      simp only []
      linarith
  · rw [if_neg (by simp [hst])] at heq
    simp only [Option.some.injEq] at heq
    rw [← heq]
    exact hpos r0 hr0

theorem update_interests_on_like_lookup (articles : ℕ → Option InterestArticle)
    (s : List InterestRow) (article_id : ℕ) (increment now : ℚ)
    (art : InterestArticle) (hart : articles article_id = some art) (kw : String) :
    lookupInterest (update_interests_on_like articles s article_id increment now) kw
      = if kw ∈ art.keywords
        then some { keyword := kw,
                    weight := ((lookupInterest s kw).map (fun r => r.weight)).getD 0
                                + increment,
                    source := art.source_feed, updated_at := now }
        else lookupInterest s kw := by
  unfold update_interests_on_like
  rw [hart]
  simp only []
  by_cases hke : art.keywords.isEmpty
  · rw [if_pos hke]
    have hkws : art.keywords = [] := List.isEmpty_iff.mp hke
    rw [hkws]
    simp
  · rw [if_neg hke]
    exact like_foldl_lookup
      (fun k => ((lookupInterest s k).map (fun r => r.weight)).getD 0 + increment)
      art.source_feed now art.keywords s kw

theorem remove_interests_on_unlike_wlookup (articles : ℕ → Option InterestArticle)
    (s : List InterestRow) (article_id : ℕ) (decrement now : ℚ)
    (art : InterestArticle) (hart : articles article_id = some art) (kw : String) :
    (lookupInterest (remove_interests_on_unlike articles s article_id decrement now)
        kw).map (fun r => r.weight)
      = if kw ∈ art.keywords
        then (match (lookupInterest s kw).map (fun r => r.weight) with
          | none => (lookupInterest s kw).map (fun r => r.weight)
          | some w => if w - decrement ≤ 0 then none else some (w - decrement))
        else (lookupInterest s kw).map (fun r => r.weight) := by
  unfold remove_interests_on_unlike
  rw [hart]
  simp only []
  by_cases hke : art.keywords.isEmpty
  · rw [if_pos hke]
    have hkws : art.keywords = [] := List.isEmpty_iff.mp hke
    rw [hkws]
    simp
  · rw [if_neg hke]
    exact unlike_foldl_wlookup
      (fun k => (lookupInterest s k).map (fun r => r.weight)) decrement now
      art.keywords s kw

theorem unlike_no_record_noop (articles : ℕ → Option InterestArticle)
    (s : List InterestRow) (article_id : ℕ) (decrement now : ℚ)
    (hnone : ∀ kw ∈ (match articles article_id with
      | some art => art.keywords
      | none => ([] : List String)), lookupInterest s kw = none) :
    remove_interests_on_unlike articles s article_id decrement now = s := by
  unfold remove_interests_on_unlike
  cases hart : articles article_id with
  | none => rfl
  | some art =>
      simp only []
      by_cases hke : art.keywords.isEmpty
      · rw [if_pos hke]
      · rw [if_neg hke]
        rw [hart] at hnone
        have H : ∀ (kws : List String), (∀ kw ∈ kws, lookupInterest s kw = none) →
            ∀ st : List InterestRow,
            kws.foldl (fun acc kw =>
              match (lookupInterest s kw).map (fun r => r.weight) with
              | none => acc
              | some w =>
                  if w - decrement ≤ 0 then deleteInterest acc kw
                  else upsertPartial acc kw (w - decrement) now) st = st := by
          intro kws
          induction kws with
          | nil => intro _ st; rfl
          | cons k ks ih =>
              intro hall st
              rw [List.foldl_cons]
              have hk : lookupInterest s k = none := hall k (by simp)
              rw [hk]
              exact ih (fun kw hkw => hall kw (by simp [hkw])) st
        exact H art.keywords hnone s

/-- C7 counterexample: under the default settings
(`like_weight_increment = 1.0`, `decay_factor = 0.9`,
`decay_interval_days = 7`) the operation sequence `c7ops` (like, six
decays, like, four decays, unlike) leaves a record for the keyword `ai`
with weight `0.9^10 + 0.9^4 - 1 = 0.0047784401 ≤ 0.01 = epsilon`: the
unlike path deletes only at ≤ 0, so a record with weight at or below
epsilon exists. -/
theorem interest_epsilon_invariant_counterexample :
    (lookupInterest (runInterestOps c7articles 1 (9 / 10) 7 [] c7ops) "ai").map
        (fun r => r.weight) = some (47784401 / 10000000000)
    ∧ ((47784401 : ℚ) / 10000000000) ≤ 1 / 100
    ∧ (0 : ℚ) < 47784401 / 10000000000 := by
  refine ⟨?_, by norm_num, by norm_num⟩
  norm_num [runInterestOps, c7ops, c7articles, applyInterestOp,
    update_interests_on_like, remove_interests_on_unlike, apply_time_decay,
    upsertFull, upsertPartial, deleteInterest, lookupInterest, List.foldl,
    List.filterMap, List.filter, List.find?, List.any, List.isEmpty]

/-- C7 (amended): after any sequence of interest-store operations with a
positive like increment, every existing record's weight is strictly
positive; only the decay path enforces the 0.01 minimum (it deletes
records whose decayed weight falls below 0.01), while the unlike path
deletes only at weight ≤ 0 and so can leave weights at or below 0.01. -/
theorem interest_weights_stay_positive (articles : ℕ → Option InterestArticle)
    (increment decay_factor interval_days : ℚ) (hinc : 0 < increment)
    (ops : List InterestOp) (s : List InterestRow)
    (hpos : ∀ r ∈ s, 0 < r.weight) :
    ∀ r ∈ runInterestOps articles increment decay_factor interval_days s ops,
      0 < r.weight := by
  induction ops generalizing s with
  | nil => exact hpos
  | cons op ops ih =>
      unfold runInterestOps
      rw [List.foldl_cons]
      refine ih _ ?_
      cases op with
      | like article_id now =>
          exact like_preserves_pos articles s article_id increment now hpos hinc
      | unlike article_id now =>
          exact unlike_preserves_pos articles s article_id increment now hpos
      | decay now =>
          exact decay_preserves_pos s decay_factor interval_days now hpos

theorem interest_weights_stay_positive_witness :
    (0 : ℚ) < 1 ∧ (∀ r ∈ ([] : List InterestRow), 0 < r.weight)
    ∧ (∀ r ∈ runInterestOps c7articles 1 (9 / 10) 7 [] [.like 1 0], 0 < r.weight) :=
  ⟨by norm_num, by simp,
   interest_weights_stay_positive c7articles 1 (9 / 10) 7 (by norm_num)
     [.like 1 0] [] (by simp)⟩

/-- C8: for any user store with positive weights and a positive configured
increment, a like followed by an unlike of the same article restores every
keyword's stored weight to its pre-like value exactly (including restoring
non-existence when the keyword was absent before the like), leaves every
stored weight strictly positive (never negative), and an unlike whose
article keywords have no records in the store is a no-op. -/
theorem like_unlike_roundtrip (articles : ℕ → Option InterestArticle)
    (s : List InterestRow) (article_id : ℕ) (increment now₁ now₂ : ℚ)
    (hpos : ∀ r ∈ s, 0 < r.weight) (hinc : 0 < increment) :
    (∀ kw, (lookupInterest (remove_interests_on_unlike articles
        (update_interests_on_like articles s article_id increment now₁)
        article_id increment now₂) kw).map (fun r => r.weight)
      = (lookupInterest s kw).map (fun r => r.weight))
    ∧ (∀ r ∈ remove_interests_on_unlike articles
        (update_interests_on_like articles s article_id increment now₁)
        article_id increment now₂, 0 < r.weight)
    ∧ (∀ s' : List InterestRow,
        (∀ kw ∈ (match articles article_id with
          | some art => art.keywords
          | none => ([] : List String)), lookupInterest s' kw = none) →
        remove_interests_on_unlike articles s' article_id increment now₂ = s') := by
  refine ⟨?_, ?_, ?_⟩
  · intro kw
    cases hart : articles article_id with
    | none =>
        unfold remove_interests_on_unlike update_interests_on_like
        rw [hart]
    | some art =>
        rw [remove_interests_on_unlike_wlookup articles _ article_id increment now₂
          art hart kw]
        by_cases hkw : kw ∈ art.keywords
        · rw [if_pos hkw]
          rw [update_interests_on_like_lookup articles s article_id increment now₁
            art hart kw, if_pos hkw]
          simp only [Option.map_some']
          cases hf : lookupInterest s kw with
          | none =>
              simp only [hf, Option.map_none', Option.getD_none]
              rw [if_pos (by simp)]
          | some r =>
              have hrpos := hpos r (List.mem_of_find?_eq_some hf)
              simp only [hf, Option.map_some', Option.getD_some]
              rw [if_neg (by intro hcon; linarith)]
              simp only [Option.some.injEq]
              ring
        · rw [if_neg hkw]
          rw [update_interests_on_like_lookup articles s article_id increment now₁
            art hart kw, if_neg hkw]
  · exact unlike_preserves_pos articles _ article_id increment now₂
      (like_preserves_pos articles s article_id increment now₁ hpos hinc)
  · intro s' hnone
    exact unlike_no_record_noop articles s' article_id increment now₂ hnone

theorem like_unlike_roundtrip_witness :
    (∀ r ∈ c9store, 0 < r.weight) ∧ (0 : ℚ) < 1
    ∧ (∀ kw, (lookupInterest (remove_interests_on_unlike c7articles
        (update_interests_on_like c7articles c9store 1 1 10) 1 1 20) kw).map
          (fun r => r.weight)
      = (lookupInterest c9store kw).map (fun r => r.weight)) :=
  ⟨by norm_num [c9store], by norm_num,
   (like_unlike_roundtrip c7articles c9store 1 1 10 20 (by norm_num [c9store])
     (by norm_num)).1⟩

theorem decay_origin (s : List InterestRow) (f iv now : ℚ) :
    ∀ r' ∈ (apply_time_decay s f iv now).1, ∃ r ∈ s, r'.keyword = r.keyword
      ∧ ((r' = r ∧ ¬ r.updated_at < now - iv)
          ∨ (r'.weight = r.weight * f ∧ r'.updated_at = now)) := by
  intro r' hr'
  unfold apply_time_decay at hr'
  simp only [List.mem_filterMap] at hr'
  obtain ⟨r0, hr0, heq⟩ := hr'
  by_cases hst : r0.updated_at < now - iv
  · rw [if_pos (decide_eq_true hst)] at heq
    by_cases hmin : r0.weight * f < 1 / 100
    · rw [if_pos hmin] at heq
      exact Option.noConfusion heq
    · rw [if_neg hmin] at heq
      simp only [Option.some.injEq] at heq
      exact ⟨r0, hr0, by rw [← heq], Or.inr (by rw [← heq]; exact ⟨rfl, rfl⟩)⟩
  · rw [if_neg (by simp [hst])] at heq
    simp only [Option.some.injEq] at heq
    exact ⟨r0, hr0, by rw [← heq], Or.inl ⟨heq.symm, hst⟩⟩

theorem decay_nonneg (s : List InterestRow) (f iv now : ℚ) (hf0 : 0 ≤ f)
    (hw : ∀ r ∈ s, 0 ≤ r.weight) :
    ∀ r' ∈ (apply_time_decay s f iv now).1, 0 ≤ r'.weight := by
  intro r' hr'
  obtain ⟨r, hr, _, horig⟩ := decay_origin s f iv now r' hr'
  rcases horig with ⟨heq, _⟩ | ⟨heq, _⟩
  · rw [heq]; exact hw r hr
  · rw [heq]; exact mul_nonneg (hw r hr) hf0

theorem decay_fold_monotone (f iv : ℚ) (hf0 : 0 ≤ f) (hf1 : f ≤ 1) :
    ∀ (nows : List ℚ) (s : List InterestRow), (∀ r ∈ s, 0 ≤ r.weight) →
      ∀ r' ∈ nows.foldl (fun st now => (apply_time_decay st f iv now).1) s,
        ∃ r ∈ s, r'.keyword = r.keyword ∧ r'.weight ≤ r.weight := by
  intro nows
  induction nows with
  | nil => intro s _ r' hr'; exact ⟨r', hr', rfl, le_refl _⟩
  | cons now ns ih =>
      intro s hw r' hr'
      rw [List.foldl_cons] at hr'
      obtain ⟨r1, hr1, hkw1, hle1⟩ :=
        ih (apply_time_decay s f iv now).1 (decay_nonneg s f iv now hf0 hw) r' hr'
      obtain ⟨r, hr, hkw, horig⟩ := decay_origin s f iv now r1 hr1
      refine ⟨r, hr, by rw [hkw1, hkw], ?_⟩
      rcases horig with ⟨heq, _⟩ | ⟨heq, _⟩
      · rw [heq] at hle1; exact hle1
      · rw [heq] at hle1
        calc r'.weight ≤ r.weight * f := hle1
        _ ≤ r.weight := mul_le_of_le_one_right (hw r hr) hf1

theorem decay_same_now_noop (s : List InterestRow) (f iv now : ℚ) (hiv : 0 ≤ iv) :
    apply_time_decay (apply_time_decay s f iv now).1 f iv now
      = ((apply_time_decay s f iv now).1, 0) := by
  have hns : ∀ r ∈ (apply_time_decay s f iv now).1, ¬ r.updated_at < now - iv := by
    intro r hr
    obtain ⟨r0, _, _, horig⟩ := decay_origin s f iv now r hr
    rcases horig with ⟨heq, hst⟩ | ⟨_, hts⟩
    · rw [heq]; exact hst
    · rw [hts]; linarith
  unfold apply_time_decay
  refine Prod.ext ?_ ?_
  · simp only []
    have H : ∀ l : List InterestRow, (∀ r ∈ l, ¬ r.updated_at < now - iv) →
        l.filterMap (fun r =>
          if decide (r.updated_at < now - iv) = true then
            if r.weight * f < 1 / 100 then none
            else some { r with weight := r.weight * f, updated_at := now }
          else some r) = l := by
      intro l
      induction l with
      | nil => intro _; rfl
      | cons a l' ihl =>
          intro hall
          rw [List.filterMap_cons]
          rw [if_neg (by simp [hall a (by simp)])]
          rw [ihl (fun r hr => hall r (by simp [hr]))]
    exact H _ hns
  · simp only []
    rw [List.length_eq_zero]
    rw [List.filter_eq_nil_iff]
    intro r hr
    simp only [decide_eq_true_eq]
    exact hns r hr

theorem decay_refreshed_excluded (s : List InterestRow) (f iv now₁ now₂ : ℚ)
    (h12 : now₂ ≤ now₁ + iv) :
    ∀ r ∈ (apply_time_decay s f iv now₁).1, r.updated_at = now₁ →
      r ∈ (apply_time_decay (apply_time_decay s f iv now₁).1 f iv now₂).1 := by
  intro r hr hts
  refine List.mem_filterMap.mpr ⟨r, hr, ?_⟩
  rw [if_neg (by simp only [decide_eq_true_eq]; rw [hts]; intro hcon; linarith)]

/-- C9: (a) repeated `apply_time_decay` calls only ever decrease a
record's weight or delete the record, never increase a weight (every
surviving row traces to an original row with the same keyword and a
weight at least as large); (b) a second call at the same time is a no-op
reporting zero touched rows; (c) a record the first call refreshed
(`updated_at` set to that call's now) is excluded by the staleness filter
of any subsequent call within one decay interval. -/
theorem time_decay_monotone_idempotent (f iv : ℚ)
    (hf0 : 0 ≤ f) (hf1 : f ≤ 1) (hiv : 0 ≤ iv) :
    (∀ (nows : List ℚ) (s : List InterestRow), (∀ r ∈ s, 0 ≤ r.weight) →
      ∀ r' ∈ nows.foldl (fun st now => (apply_time_decay st f iv now).1) s,
        ∃ r ∈ s, r'.keyword = r.keyword ∧ r'.weight ≤ r.weight)
    ∧ (∀ (s : List InterestRow) (now : ℚ),
        apply_time_decay (apply_time_decay s f iv now).1 f iv now
          = ((apply_time_decay s f iv now).1, 0))
    ∧ (∀ (s : List InterestRow) (now₁ now₂ : ℚ), now₂ ≤ now₁ + iv →
        ∀ r ∈ (apply_time_decay s f iv now₁).1, r.updated_at = now₁ →
          r ∈ (apply_time_decay (apply_time_decay s f iv now₁).1 f iv now₂).1) :=
  ⟨decay_fold_monotone f iv hf0 hf1,
   fun s now => decay_same_now_noop s f iv now hiv,
   fun s now₁ now₂ h12 => decay_refreshed_excluded s f iv now₁ now₂ h12⟩

theorem time_decay_monotone_idempotent_witness :
    (0 : ℚ) ≤ 9 / 10 ∧ (9 : ℚ) / 10 ≤ 1 ∧ (0 : ℚ) ≤ 7
    ∧ (∀ r ∈ c9store, 0 ≤ r.weight)
    ∧ (∀ r' ∈ [(10 : ℚ)].foldl
        (fun st now => (apply_time_decay st (9 / 10) 7 now).1) c9store,
        ∃ r ∈ c9store, r'.keyword = r.keyword ∧ r'.weight ≤ r.weight) :=
  ⟨by norm_num, by norm_num, by norm_num, by norm_num [c9store],
   (time_decay_monotone_idempotent (9 / 10) 7 (by norm_num) (by norm_num)
     (by norm_num)).1 [10] c9store (by norm_num [c9store])⟩

/-! ## Digest theorems (C10) -/

/-- C10: `generate_daily_digest` pairs the empty sentinel with an empty
article-id list for a date with zero articles, while a non-empty date
whose LLM call raises (after retries) or whose response body fails JSON
parsing yields the same empty sentinel paired with the complete list of
the date's article ids — the id list is non-empty exactly when the date
had articles, so callers can tell the two outcomes apart. -/
theorem digest_empty_vs_failure_distinguished (rows : List DigestArticleRow)
    (o o' : Option (Option Jv)) (hne : rows ≠ [])
    (hfail : o = none ∨ o = some none) :
    generate_daily_digest [] o' = (NO_ARTICLES_DIGEST, [])
    ∧ generate_daily_digest rows o = (NO_ARTICLES_DIGEST, rows.map (fun r => r.id))
    ∧ (generate_daily_digest rows o).2 ≠ (generate_daily_digest [] o').2 := by
  have hE : rows.isEmpty = false := by
    cases rows with
    | nil => exact absurd rfl hne
    | cons a rest => rfl
  have h1 : generate_daily_digest [] o' = (NO_ARTICLES_DIGEST, []) := by
    rfl
  have h2 : generate_daily_digest rows o
      = (NO_ARTICLES_DIGEST, rows.map (fun r => r.id)) := by
    unfold generate_daily_digest
    rw [hE]
    rcases hfail with h | h
    · rw [h]
      rfl
    · rw [h]
      rfl
  refine ⟨h1, h2, ?_⟩
  rw [h1, h2]
  simp only []
  intro hcon
  apply hne
  exact List.map_eq_nil_iff.mp hcon

theorem digest_empty_vs_failure_distinguished_witness :
    c10rows ≠ [] ∧ ((none : Option (Option Jv)) = none ∨ (none : Option (Option Jv)) = some none)
    ∧ generate_daily_digest c10rows none
        = (NO_ARTICLES_DIGEST, c10rows.map (fun r => r.id)) :=
  ⟨by simp [c10rows], Or.inl rfl,
   (digest_empty_vs_failure_distinguished c10rows none none (by simp [c10rows])
     (Or.inl rfl)).2.1⟩

end Curately

